import Mathlib

/-!
# bernata/oci : reference validation, credential decoding and the signing workflow

A shallow embedding of `sign.go` and `manifest.go`.

* A Go `string` handed to `regexp` is read rune by rune; it is embedded as `List Char`.
* Calls into other modules (`name.ParseReference`, `base64.StdEncoding`, the cosign and
  go-containerregistry clients) are parameters of the embedded functions: the program's
  own control flow and data flow are what is verified.
-/

namespace OCI

/-! ## `parseOCIReference` (sign.go) -/

/-- Regular expression matching one character out of the listed ones (a bracket class). -/
def charClass (cs : List Char) : RegularExpression Char :=
  cs.foldr (fun c r => RegularExpression.char c + r) 0

/-- One or more repetitions, the `+` operator of the pattern. -/
def plus1 (r : RegularExpression Char) : RegularExpression Char :=
  r * RegularExpression.star r

/-- The characters of the class `[A-Za-z0-9]`. -/
def alnumChars : List Char :=
  "ABCDEFGHIJKLMNOPQRSTUVWXYZabcdefghijklmnopqrstuvwxyz0123456789".toList

/-- The characters of the class `[-._:@+]`. -/
def sepChars : List Char := ['-', '.', '_', ':', '@', '+']

/-- Sub-pattern `[A-Za-z0-9]+`. -/
def alnumPlus : RegularExpression Char := plus1 (charClass alnumChars)

/-- Sub-pattern `([-._:@+]|--)`. -/
def sepOrDouble : RegularExpression Char :=
  charClass sepChars + RegularExpression.char '-' * RegularExpression.char '-'

/-- Sub-pattern `[A-Za-z0-9]+(([-._:@+]|--)[A-Za-z0-9]+)*`, one path component. -/
def component : RegularExpression Char :=
  alnumPlus * RegularExpression.star (sepOrDouble * alnumPlus)

/-- The pattern compiled by `parseOCIReference`,
`^(component)(/(component))*$`; the anchors make `MatchString` a whole-string match. -/
def ociReferenceRegex : RegularExpression Char :=
  component * RegularExpression.star (RegularExpression.char '/' * component)

/-- Boolean result of `ociReferenceRegex.MatchString(ref)`. -/
def MatchString (ref : List Char) : Bool := ociReferenceRegex.rmatch ref

/-! ### The grammar in words

The decidable predicate below spells the accepted language out: first and last character
alphanumeric, the characters in between alphanumeric or one of `-._:@+/`, and every maximal
run of non-alphanumeric characters a single separator or the pair `--`. -/

/-- ASCII letters and digits, by code point. -/
def isAsciiAlnum (c : Char) : Bool :=
  (65 ≤ c.toNat && c.toNat ≤ 90) || (97 ≤ c.toNat && c.toNat ≤ 122) ||
    (48 ≤ c.toNat && c.toNat ≤ 57)

/-- The seven punctuation characters `-._:@+/`. -/
def isSeparator (c : Char) : Bool :=
  c == '-' || c == '.' || c == '_' || c == ':' || c == '@' || c == '+' || c == '/'

/-- Maximal runs of non-alphanumeric characters of the second argument, in order; the first
argument is the run under construction (the non-alphanumeric characters read since the last
alphanumeric one). -/
def runsAux : List Char → List Char → List (List Char)
  | cur, [] => if cur.isEmpty then [] else [cur]
  | cur, c :: s =>
    if isAsciiAlnum c then
      (if cur.isEmpty then runsAux [] s else cur :: runsAux [] s)
    else runsAux (cur ++ [c]) s

/-- The maximal runs of non-alphanumeric characters of a string. -/
def nonAlnumRuns (s : List Char) : List (List Char) := runsAux [] s

/-- `r` occupies a maximal run of non-alphanumeric characters of `s`: it is non-empty, has no
alphanumeric character, and is neither preceded nor followed by a non-alphanumeric one. -/
def IsMaximalRun (s r : List Char) : Prop :=
  r ≠ [] ∧ (∀ c ∈ r, isAsciiAlnum c = false) ∧
    ∃ u v, s = u ++ r ++ v ∧ (∀ c, u.getLast? = some c → isAsciiAlnum c = true) ∧
      (∀ c, v.head? = some c → isAsciiAlnum c = true)

/-- A run is allowed when it is one separator character or exactly `--`. -/
def allowedRun (r : List Char) : Bool :=
  match r with
  | [c] => isSeparator c
  | [c, d] => c == '-' && d == '-'
  | _ => false

/-- The first character exists and is an ASCII alphanumeric. -/
def headAlnum (s : List Char) : Bool :=
  match s.head? with
  | some c => isAsciiAlnum c
  | none => false

/-- The last character exists and is an ASCII alphanumeric. -/
def lastAlnum (s : List Char) : Bool :=
  match s.getLast? with
  | some c => isAsciiAlnum c
  | none => false

/-- The characters strictly between the first and the last one. -/
def inner (s : List Char) : List Char := (s.drop 1).dropLast

/-- The grammar as described in words. -/
def grammarSpec (s : List Char) : Bool :=
  !s.isEmpty && headAlnum s && lastAlnum s &&
    (inner s).all (fun c => isAsciiAlnum c || isSeparator c) &&
    (nonAlnumRuns s).all allowedRun

/-- Every character is alphanumeric or a separator. -/
def allOk (s : List Char) : Bool := s.all (fun c => isAsciiAlnum c || isSeparator c)

/-! ### A three-state scanner, used to connect the pattern with the description -/

/-- Scanner states: `expect` wants an alphanumeric next (start of the string, or just after a
separator, `--` or `/`), `inside` is within an alphanumeric run, `dash` has read one `-` after
an alphanumeric run. -/
inductive Phase
  | expect
  | inside
  | dash
  deriving DecidableEq, Repr

/-- One scanner transition; `none` rejects. -/
def Phase.step : Phase → Char → Option Phase
  | .expect, c => if isAsciiAlnum c then some .inside else none
  | .inside, c =>
    if isAsciiAlnum c then some .inside
    else if c = '-' then some .dash
    else if isSeparator c then some .expect
    else none
  | .dash, c =>
    if isAsciiAlnum c then some .inside
    else if c = '-' then some .expect
    else none

/-- Run the scanner; it accepts when the input ends inside an alphanumeric run. -/
def scan : Phase → List Char → Bool
  | .inside, [] => true
  | _, [] => false
  | p, c :: s =>
    match p.step c with
    | none => false
    | some q => scan q s

/-! ### `parseOCIReference` itself -/

/-- Go `error` values of the program: the sentinel created by `parseOCIReference`, errors
coming back from a library call, and `fmt.Errorf("<context>: %w", err)` wrappers (the quoted
argument some of them print is left out). -/
inductive Err where
  | invalidOCIRefName
  | external (msg : String)
  | wrapped (context : String) (inner : Err)
  deriving DecidableEq, Repr

/-- Result of one call of `parseOCIReference`: the returned `(name.Reference, error)` pair as
an `Except`, together with the arguments handed to `name.ParseReference` during the call. -/
structure ParseOutcome (ρ : Type) where
  result : Except Err ρ
  handedDown : List (List Char)

/-- Embedding of `parseOCIReference`; `ParseReference` stands for `name.ParseReference` of
go-containerregistry.

    if !ociReferenceRegex.MatchString(ref) { return nil, errInvalidOCIRefName }
    return name.ParseReference(ref)
-/
def parseOCIReference {ρ : Type} (ParseReference : List Char → Except Err ρ)
    (ref : List Char) : ParseOutcome ρ :=
  if !MatchString ref then
    { result := .error .invalidOCIRefName, handedDown := [] }
  else
    { result := ParseReference ref, handedDown := [ref] }

/-- A downstream parser that, like the repository check of go-containerregistry, refuses
upper-case letters; it is used as a sample collaborator. -/
def lowercaseOnlyParser (ref : List Char) : Except Err (List Char) :=
  if ref.any Char.isUpper then .error (.external "could not parse reference") else .ok ref

/-! ## `normalizeToken` and `retrieveCredential` (manifest.go)

A Go `string` is a sequence of bytes; here it is a list of byte values. -/

/-- A Go string or byte slice, as its bytes. -/
abbrev GoBytes := List Nat

/-- The bytes of a literal made of ASCII characters. -/
def asciiBytes (s : String) : GoBytes := s.toList.map Char.toNat

/-- The literal `"AWS:"` stripped by `normalizeToken`. -/
def awsMarker : GoBytes := asciiBytes "AWS:"

/-- The function `strings.TrimPrefix(s, marker)`: `s` without the leading `marker` when it
starts with it, `s` itself otherwise. -/
def TrimPrefix (s marker : GoBytes) : GoBytes :=
  if marker.isPrefixOf s then s.drop marker.length else s

/-- Embedding of `normalizeToken`; `DecodeString` stands for
`base64.StdEncoding.DecodeString`. The result is the Go pair `(string, error)`, a `nil` error
being `none`.

    decoded, err := base64.StdEncoding.DecodeString(token)
    if err != nil { return "", err }
    return strings.TrimPrefix(string(decoded), "AWS:"), nil
-/
def normalizeToken (DecodeString : GoBytes → Except Err GoBytes) (token : GoBytes) :
    GoBytes × Option Err :=
  match DecodeString token with
  | .error err => ([], some err)
  | .ok decoded => (TrimPrefix decoded awsMarker, none)

/-- The two fields of `auth.Credential` the program fills in. -/
structure Credential where
  Username : GoBytes
  Password : GoBytes
  deriving DecidableEq, Repr

/-- The zero value `auth.Credential{}`. -/
def Credential.zero : Credential := { Username := [], Password := [] }

/-- Embedding of `retrieveCredential`. `LoadDefaultConfig` and `GetAuthorizationToken` stand
for the AWS SDK calls, the latter already projected to
`*authTokenOutput.AuthorizationData[0].AuthorizationToken`. -/
def retrieveCredential {κ : Type} (LoadDefaultConfig : Except Err κ)
    (GetAuthorizationToken : κ → Except Err GoBytes)
    (DecodeString : GoBytes → Except Err GoBytes) : Credential × Option Err :=
  match LoadDefaultConfig with
  | .error err => (Credential.zero, some err)
  | .ok c =>
    match GetAuthorizationToken c with
    | .error err => (Credential.zero, some err)
    | .ok token =>
      match normalizeToken DecodeString token with
      | (_, some err) => (Credential.zero, some err)
      | (password, none) => ({ Username := asciiBytes "AWS", Password := password }, none)

/-! ### A reference base64 codec (RFC 4648, alphabet `A-Za-z0-9+/`, `=` padding)

Used as a sample `base64.StdEncoding` where a concrete collaborator is needed. -/

/-- The character of the base64 alphabet for a 6-bit value. -/
def sextetChar (n : Nat) : Nat :=
  if n < 26 then n + 65 else if n < 52 then n + 71 else if n < 62 then n - 4
  else if n = 62 then 43 else 47

/-- The 6-bit value of a base64 alphabet character. -/
def sextetValue (b : Nat) : Option Nat :=
  if 65 ≤ b ∧ b ≤ 90 then some (b - 65)
  else if 97 ≤ b ∧ b ≤ 122 then some (b - 71)
  else if 48 ≤ b ∧ b ≤ 57 then some (b + 4)
  else if b = 43 then some 62
  else if b = 47 then some 63
  else none

/-- Padded encoding, three bytes to four characters. -/
def stdEncode : GoBytes → GoBytes
  | [] => []
  | [a] => [sextetChar (a / 4), sextetChar (a % 4 * 16), 61, 61]
  | [a, b] => [sextetChar (a / 4), sextetChar (a % 4 * 16 + b / 16), sextetChar (b % 16 * 4), 61]
  | a :: b :: c :: rest =>
    sextetChar (a / 4) :: sextetChar (a % 4 * 16 + b / 16) ::
      sextetChar (b % 16 * 4 + c / 64) :: sextetChar (c % 64) :: stdEncode rest

/-- Padded decoding, four characters to three bytes; anything else is corrupt input. -/
def stdDecode : GoBytes → Except Err GoBytes
  | [] => .ok []
  | [w, x, 61, 61] =>
    match sextetValue w, sextetValue x with
    | some p, some q => .ok [p * 4 + q / 16]
    | _, _ => .error (.external "illegal base64 data")
  | [w, x, y, 61] =>
    match sextetValue w, sextetValue x, sextetValue y with
    | some p, some q, some r => .ok [p * 4 + q / 16, q % 16 * 16 + r / 4]
    | _, _, _ => .error (.external "illegal base64 data")
  | w :: x :: y :: z :: rest =>
    match sextetValue w, sextetValue x, sextetValue y, sextetValue z with
    | some p, some q, some r, some t =>
      match stdDecode rest with
      | .ok tail => .ok ((p * 4 + q / 16) :: (q % 16 * 16 + r / 4) :: (r % 4 * 64 + t) :: tail)
      | .error e => .error e
    | _, _, _, _ => .error (.external "illegal base64 data")
  | _ => .error (.external "illegal base64 data")

/-! ### Valid base64 and the decoder of the Go standard library -/

/-- Membership in the base64 alphabet `A-Za-z0-9+/`. -/
def isBase64Char (b : Nat) : Bool :=
  (65 ≤ b && b ≤ 90) || (97 ≤ b && b ≤ 122) || (48 ≤ b && b ≤ 57) || b == 43 || b == 47

/-- Valid standard padded base64 (RFC 4648, section 4): the length is a multiple of four and
the text is alphabet characters followed by no padding, one `=` or two `=`. -/
def IsStdBase64 (s : GoBytes) : Prop :=
  s.length % 4 = 0 ∧
    ∃ body pad, s = body ++ pad ∧ (∀ b ∈ body, isBase64Char b = true) ∧
      (pad = [] ∨ pad = [61] ∨ pad = [61, 61])

/-- The text without carriage returns and line feeds. -/
def stripNewlines (s : GoBytes) : GoBytes := s.filter (fun b => b != 10 && b != 13)

/-- Model of `base64.StdEncoding.DecodeString` of the Go standard library, which is not part
of this repository, after its documentation: padded RFC 4648 decoding in which new line
characters (CR and LF) are ignored. -/
def goDecodeString (s : GoBytes) : Except Err GoBytes := stdDecode (stripNewlines s)

/-- Validity, quantum by quantum. -/
def validQuads : GoBytes → Bool
  | [] => true
  | w :: x :: y :: z :: rest =>
    if rest.isEmpty then
      isBase64Char w && isBase64Char x &&
        ((isBase64Char y && isBase64Char z) || (isBase64Char y && z == 61) ||
          (y == 61 && z == 61))
    else
      isBase64Char w && isBase64Char x && isBase64Char y && isBase64Char z && validQuads rest
  | _ => false

/-! ## The label merge of `Sign.Run` (sign.go, lines 76-89) -/

/-- A Go `map[string]string`, by content: the value stored under each key, if any. -/
abbrev GoMap := String → Option String

/-- The map `make(map[string]string)`. -/
def GoMap.empty : GoMap := fun _ => none

/-- The map after the assignment `m[k] = v`. -/
def GoMap.set (m : GoMap) (k v : String) : GoMap := fun j => if j = k then some v else m j

/-- Reading a possibly-nil map (`none` is the nil map, which holds nothing). -/
def lookupLabel (labels : Option GoMap) (k : String) : Option String :=
  match labels with
  | none => none
  | some m => m k

/-- The label merge. `annotations` lists the entries of the annotation map in the order the
`range` loop happens to visit them.

    if cfg.Config.Labels == nil { cfg.Config.Labels = make(map[string]string, len(annotations)) }
    for k, v := range annotations { cfg.Config.Labels[k] = v }
-/
def mergeLabels (labels : Option GoMap) (annotations : List (String × String)) : GoMap :=
  let start : GoMap :=
    match labels with
    | none => GoMap.empty
    | some m => m
  annotations.foldl (fun m kv => m.set kv.1 kv.2) start

/-! ## `Sign.Run` (sign.go)

The registry, the signer and the cosign helpers are collaborators; the state of the world
they act on is threaded explicitly, and a ghost log records what the program asked of them. -/

/-- The type `name.Repository`: registry host and repository path. -/
structure Repository where
  Registry : String
  RepositoryStr : String
  deriving DecidableEq, Repr

/-- The method `Repository.Name()`, `registry/repository`. -/
def Repository.Name (r : Repository) : String := r.Registry ++ "/" ++ r.RepositoryStr

/-- The type `name.Reference` as the program uses it: `Context()` is the repository,
`Identifier()` the tag or digest, and `original` is the string the reference was parsed
from. -/
structure Reference where
  Context : Repository
  Identifier : String
  original : List Char
  deriving DecidableEq, Repr

/-- The method `Reference.String()`: go-containerregistry renders a tag or digest reference
as the string it was parsed from. -/
def Reference.String (r : Reference) : List Char := r.original

/-! ### A sample of the downstream reference parser -/

/-- The characters go-containerregistry allows in a repository path. -/
def repositoryChars : List Char := "abcdefghijklmnopqrstuvwxyz0123456789_-./".toList
/-- The characters go-containerregistry allows in a tag. -/
def tagChars : List Char :=
  "abcdefghijklmnopqrstuvwxyzABCDEFGHIJKLMNOPQRSTUVWXYZ0123456789_-.".toList
/-- Lower-case hexadecimal digits. -/
def hexChars : List Char := "0123456789abcdef".toList

/-- The check `checkElement`: the length is within bounds and every character is allowed. -/
def checkElement (element allowed : List Char) (minLen maxLen : Nat) : Bool :=
  decide (minLen ≤ element.length) && decide (element.length ≤ maxLen) &&
    element.all (fun c => allowed.contains c)

/-- The text before and after the last occurrence of `sep`, if there is one. -/
def splitLast (sep : Char) (s : List Char) : Option (List Char × List Char) :=
  match s.reverse.span (fun c => c != sep) with
  | (_, []) => none
  | (after, _ :: before) => some (before.reverse, after.reverse)

/-- Sample of `name.NewRepository` (weak validation): the text before the first `/` is the
registry when it holds a `.` or a `:`, Docker Hub is the default registry, and the repository
path must pass the character and length check. The check of the registry as a URI authority
is left out. -/
def NewRepository (name : List Char) : Except Err Repository :=
  if name.isEmpty then .error (.external "a repository name must be specified")
  else
    let parts : List Char × List Char :=
      match name.span (fun c => c != '/') with
      | (first, _ :: rest) =>
        if first.contains '.' || first.contains ':' then (first, rest) else ([], name)
      | (_, []) => ([], name)
    if checkElement parts.2 repositoryChars 2 255 then
      .ok { Registry :=
              if parts.1.isEmpty || parts.1 == "docker.io".toList then "index.docker.io"
              else String.mk parts.1,
            RepositoryStr := String.mk parts.2 }
    else .error (.external "repository can only contain the characters abcdefghijklmnopqrstuvwxyz0123456789_-./ and be between 2 and 255 characters in length")

/-- Sample of `name.NewTag`: what follows the last `:` is the tag unless it holds a `/`; a tag
that is present must pass its check, an absent one defaults to `latest`; the input is kept
as `original`. -/
def NewTag (name : List Char) : Except Err Reference :=
  let parts : List Char × List Char :=
    match splitLast ':' name with
    | some (base, tag) => if tag.contains '/' then (name, []) else (base, tag)
    | none => (name, [])
  if !parts.2.isEmpty && !checkElement parts.2 tagChars 1 128 then
    .error (.external "tag can only contain the characters abcdefghijklmnopqrstuvwxyzABCDEFGHIJKLMNOPQRSTUVWXYZ0123456789_-. and be between 1 and 128 characters in length")
  else
    match NewRepository parts.1 with
    | .error err => .error err
    | .ok repo =>
      .ok { Context := repo,
            Identifier := if parts.2.isEmpty then "latest" else String.mk parts.2,
            original := name }

/-- Sample of `name.NewDigest`: exactly one `@`, followed by `sha256:` and 64 hexadecimal
digits; the repository is what precedes the `@`, a tag there being dropped; the input is
kept as `original`. -/
def NewDigest (name : List Char) : Except Err Reference :=
  match splitLast '@' name with
  | none => .error (.external "a digest must contain exactly one '@' separator")
  | some (base, dig) =>
    if base.contains '@' then .error (.external "a digest must contain exactly one '@' separator")
    else if !("sha256:".toList.isPrefixOf dig) then
      .error (.external "unsupported digest algorithm")
    else if !checkElement (dig.drop 7) hexChars 64 64 then
      .error (.external "invalid checksum digest")
    else
      let repo : Except Err Repository :=
        match NewTag base with
        | .ok tag => .ok tag.Context
        | .error _ => NewRepository base
      match repo with
      | .error err => .error err
      | .ok repo => .ok { Context := repo, Identifier := String.mk dig, original := name }

/-- Sample of `name.ParseReference`, after the `name` package of go-containerregistry, which
is not part of this repository: a tag reference if the string parses as one, else a digest
reference, else an error. It stands in for the downstream parser where a concrete one is
needed. -/
def nameParseReference (s : List Char) : Except Err Reference :=
  match NewTag s with
  | .ok t => .ok t
  | .error _ =>
    match NewDigest s with
    | .ok d => .ok d
    | .error _ => .error (.external "could not parse reference")

/-- The type `name.Digest`: a repository qualified by a digest. -/
structure Digest where
  Repository : Repository
  DigestStr : String
  deriving DecidableEq, Repr

/-- The method `Repository.Digest(identifier)`. -/
def Repository.Digest (r : Repository) (identifier : String) : Digest :=
  { Repository := r, DigestStr := identifier }

/-- The method `Digest.Name()`, `repository@digest`. -/
def Digest.Name (d : Digest) : String := d.Repository.Name ++ "@" ++ d.DigestStr

/-- The type `v1.Hash`. -/
structure Hash where
  Algorithm : String
  Hex : String
  deriving DecidableEq, Repr

/-- The method `Hash.String()`, `algorithm:hex`. -/
def Hash.String (h : Hash) : String := h.Algorithm ++ ":" ++ h.Hex

/-- The map literal `map[string]T{k1: v1, ...}`, built entry by entry. -/
def mapLiteral (entries : List (String × String)) : GoMap :=
  entries.foldl (fun m kv => m.set kv.1 kv.2) GoMap.empty

/-- The type `payload.Cosign`: what gets serialized and signed. -/
structure Cosign where
  Image : Digest
  Annotations : GoMap

/-- The command `Sign` with its two arguments. -/
structure Sign where
  SourceImage : List Char
  DestImage : List Char

/-- The part of `v1.ConfigFile` the program touches: `Config.Labels`, and everything else. -/
structure ConfigFile (ρ : Type) where
  Labels : Option GoMap
  rest : ρ

/-- Everything `Sign.Run` calls outside this repository, as functions. -/
structure Collaborators where
  /-- `signature.SignerVerifier` -/
  Signer : Type
  /-- `*remote.Descriptor` -/
  Descriptor : Type
  /-- `v1.Image` -/
  Image : Type
  /-- the part of `v1.ConfigFile` besides the labels -/
  ConfigRest : Type
  /-- `oci.SignedEntity` -/
  Entity : Type
  /-- `oci.Signature` -/
  Signature : Type
  /-- `mutate.DupeDetector` -/
  DupeDetector : Type
  /-- state of the registry -/
  World : Type
  /-- `pem.Decode`, `x509.ParsePKCS8PrivateKey` and `signature.LoadSignerVerifier` on the key
  constant -/
  LoadSignerVerifier : Except Err Signer
  /-- `name.ParseReference` -/
  ParseReference : List Char → Except Err Reference
  /-- `remote.Get` -/
  Get : Reference → World → Except Err Descriptor
  /-- `srcDesc.Image()` -/
  DescriptorImage : Descriptor → Except Err Image
  /-- `srcImg.ConfigFile()` followed by `DeepCopy()` -/
  GetConfigFile : Image → Except Err (ConfigFile ConfigRest)
  /-- `mutate.Config` -/
  MutateConfig : Image → ConfigFile ConfigRest → Except Err Image
  /-- `mutate.Annotations` -/
  MutateAnnotations : Image → List (String × String) → Image
  /-- `remote.Write` -/
  Write : Reference → Image → World → World × Option Err
  /-- `ociremote.SignedEntity` -/
  SignedEntity : Reference → World → Except Err Entity
  /-- the entities `walk.SignedEntity` visits from a root, in its order (the root, then the
  children of an index) -/
  Entities : Entity → List Entity
  /-- `se.Digest()` -/
  EntityDigest : Entity → Except Err Hash
  /-- `(&payload.Cosign{...}).MarshalJSON()` -/
  MarshalJSON : Cosign → Except Err GoBytes
  /-- `verifier.SignMessage` -/
  SignMessage : Signer → GoBytes → Except Err GoBytes
  /-- `base64.StdEncoding.EncodeToString` -/
  EncodeToString : GoBytes → GoBytes
  /-- `static.NewSignature` -/
  NewSignature : GoBytes → GoBytes → Except Err Signature
  /-- `ocimutate.AttachSignatureToEntity`, with the dupe detector option when one is passed -/
  AttachSignatureToEntity : Entity → Signature → Option DupeDetector → Except Err Entity
  /-- `ociremote.WriteSignatures` -/
  WriteSignatures : Repository → Entity → World → World × Option Err

/-- Ghost log entries: the walker called the handler on an entity, the handler asked the
signer to sign the serialized payload, the handler asked for the signatures to be written. -/
inductive Event (deps : Collaborators) where
  | visit (se : deps.Entity)
  | signing (payload : Cosign) (data : GoBytes)
  | writing (repo : Repository) (newSE : deps.Entity)

/-- State after a step: the world, the Go `error` (`none` is `nil`), the ghost log. -/
structure Outcome (deps : Collaborators) where
  world : deps.World
  err : Option Err
  log : List (Event deps)

/-- The annotation entries `{"test": "me"}` of `Sign.Run`. -/
def testAnnotations : List (String × String) := [("test", "me")]

/-- The payload value built by the handler (lines 116-123) for a repository, a digest and an
annotation map. -/
def cosignPayload (repo : Repository) (d : Hash) (annotations : GoMap) : Cosign :=
  { Image := repo.Digest d.String, Annotations := annotations }

/-- The handler passed to `walk.SignedEntity` (lines 110-150). `dd` is the dupe detector
option given to `AttachSignatureToEntity`: `Sign.Run` passes none, the handler of `TestSign`
passes one. -/
def handler (deps : Collaborators) (verifier : deps.Signer) (dstRef : Reference)
    (dd : Option deps.DupeDetector) (se : deps.Entity) (w : deps.World) : Outcome deps :=
  match deps.EntityDigest se with
  | .error err => { world := w, err := some err, log := [] }
  | .ok d =>
    let downscaledAnnotations := mapLiteral testAnnotations
    let digest := dstRef.Context.Digest d.String
    let payload : Cosign := { Image := digest, Annotations := downscaledAnnotations }
    match deps.MarshalJSON payload with
    | .error err => { world := w, err := some err, log := [] }
    | .ok data =>
      match deps.SignMessage verifier data with
      | .error err => { world := w, err := some err, log := [.signing payload data] }
      | .ok signed =>
        let b64sig := deps.EncodeToString signed
        match deps.NewSignature data b64sig with
        | .error err => { world := w, err := some err, log := [.signing payload data] }
        | .ok sig =>
          match deps.AttachSignatureToEntity se sig dd with
          | .error err => { world := w, err := some err, log := [.signing payload data] }
          | .ok newSE =>
            let r := deps.WriteSignatures digest.Repository newSE w
            { world := r.1, err := r.2,
              log := [.signing payload data, .writing digest.Repository newSE] }

/-- Modelled from the spec: the signed-entity walker (section 4.4), `walk.SignedEntity` of
cosign, over the entities it visits. The handler is called on each in turn and the first
error ends the walk and is returned. -/
def walkSignedEntity (deps : Collaborators)
    (fn : deps.Entity → deps.World → Outcome deps) :
    List deps.Entity → deps.World → Outcome deps
  | [], w => { world := w, err := none, log := [] }
  | se :: rest, w =>
    let r := fn se w
    match r.err with
    | some err => { world := r.world, err := some err, log := .visit se :: r.log }
    | none =>
      let t := walkSignedEntity deps fn rest r.world
      { world := t.world, err := t.err, log := .visit se :: r.log ++ t.log }

/-- What `Sign.Run` has in hand when it starts the walk. -/
structure Prepared (deps : Collaborators) where
  verifier : deps.Signer
  dstRef : Reference
  se : deps.Entity
  world : deps.World

/-- Lines 38-108 of `Sign.Run`: load the signer, parse both references, fetch the source
image, merge the annotations into the labels of the copied config, write the destination
image, discover the signed entity. An error comes with the world reached. -/
def prepare (deps : Collaborators) (s : Sign) (w : deps.World) :
    Except (deps.World × Err) (Prepared deps) :=
  match deps.LoadSignerVerifier with
  | .error err => .error (w, err)
  | .ok verifier =>
    match (parseOCIReference deps.ParseReference s.SourceImage).result with
    | .error err => .error (w, .wrapped "parsing source reference" err)
    | .ok srcRef =>
      match (parseOCIReference deps.ParseReference s.DestImage).result with
      | .error err => .error (w, .wrapped "parsing destination reference" err)
      | .ok dstRef =>
        match deps.Get srcRef w with
        | .error err => .error (w, .wrapped "fetching" err)
        | .ok srcDesc =>
          match deps.DescriptorImage srcDesc with
          | .error err => .error (w, .wrapped "pulling linux/amd64 manifest" err)
          | .ok srcImg =>
            match deps.GetConfigFile srcImg with
            | .error err => .error (w, .wrapped "getting config" err)
            | .ok cfg =>
              let cfg := { cfg with Labels := some (mergeLabels cfg.Labels testAnnotations) }
              match deps.MutateConfig srcImg cfg with
              | .error err => .error (w, .wrapped "mutating config" err)
              | .ok srcImg =>
                let srcImg := deps.MutateAnnotations srcImg testAnnotations
                match deps.Write dstRef srcImg w with
                | (w1, some err) => .error (w1, .wrapped "writing destination image" err)
                | (w1, none) =>
                  match deps.SignedEntity dstRef w1 with
                  | .error err =>
                    .error (w1, .wrapped "discovering existing signed entities" err)
                  | .ok se => .ok { verifier := verifier, dstRef := dstRef, se := se, world := w1 }

/-- Embedding of `Sign.Run`: the preparation, then the walk with the handler, whose error is
returned as it is. -/
def Sign.Run (deps : Collaborators) (s : Sign) (w : deps.World) : Outcome deps :=
  match prepare deps s w with
  | .error (w1, err) => { world := w1, err := some err, log := [] }
  | .ok p =>
    walkSignedEntity deps (handler deps p.verifier p.dstRef none) (deps.Entities p.se) p.world

/-! ### A reference model of the signature store

The cosign helpers `AttachSignatureToEntity` and `WriteSignatures` are not part of this
repository. The model below follows the publisher contract of the specification (section
4.6): an attached signature is appended to the signatures already published for the digest
when they are written, unless a dupe detector was passed and finds an equivalent published
signature, in which case the published list is written back as it is. -/

/-- A published signature: payload bytes and base64 signature text. -/
structure SigEntry where
  Payload : GoBytes
  Base64Signature : GoBytes
  deriving DecidableEq, Repr

/-- A signed entity of the reference model: its digest and, once a signature has been
attached, that signature with the dupe detector given at attachment. -/
structure ModelEntity where
  digest : Hash
  pending : Option (SigEntry × Option (SigEntry → SigEntry → Bool))

/-- Modelled from the spec: the dupe-detection policy of the signature publisher (section
4.6). The signatures to write are the published ones, plus the new one unless a detector was
given and finds an equivalent among them. -/
def dedupeAndReplace (dd : Option (SigEntry → SigEntry → Bool)) (sig : SigEntry)
    (base : List SigEntry) : List SigEntry :=
  match dd with
  | some same => if base.any (fun e => same e sig) then base else base ++ [sig]
  | none => base ++ [sig]

/-- Modelled from the spec: the default equivalence of the detector, same payload bytes. -/
def samePayload (existing new : SigEntry) : Bool := existing.Payload == new.Payload

/-- Modelled from the spec: the registry side of the signature publisher (section 4.6). The
world holds, per digest reference, the list of published signatures; attaching records the
signature and the detector, writing stores `dedupeAndReplace` of the published list. `marshal`
serializes payloads, a signer is its signing function, and the image side of the registry is
not modelled. -/
def referenceModel (marshal : Cosign → GoBytes) : Collaborators where
  Signer := GoBytes → GoBytes
  Descriptor := Unit
  Image := Unit
  ConfigRest := Unit
  Entity := ModelEntity
  Signature := SigEntry
  DupeDetector := SigEntry → SigEntry → Bool
  World := Digest → List SigEntry
  LoadSignerVerifier := .ok id
  ParseReference := fun _ => .error (.external "not modelled")
  Get := fun _ _ => .ok ()
  DescriptorImage := fun _ => .ok ()
  GetConfigFile := fun _ => .ok { Labels := none, rest := () }
  MutateConfig := fun _ _ => .ok ()
  MutateAnnotations := fun _ _ => ()
  Write := fun _ _ w => (w, none)
  SignedEntity := fun _ _ => .error (.external "not modelled")
  Entities := fun se => [se]
  EntityDigest := fun se => .ok se.digest
  MarshalJSON := fun payload => .ok (marshal payload)
  SignMessage := fun signer data => .ok (signer data)
  EncodeToString := stdEncode
  NewSignature := fun data b64sig => .ok { Payload := data, Base64Signature := b64sig }
  AttachSignatureToEntity := fun se sig dd => .ok { se with pending := some (sig, dd) }
  WriteSignatures := fun repo newSE w =>
    match newSE.pending with
    | none => (w, none)
    | some (sig, dd) =>
      (Function.update w (repo.Digest newSE.digest.String)
        (dedupeAndReplace dd sig (w (repo.Digest newSE.digest.String))), none)

/-- A stand-in serializer for concrete runs: the bytes of the image name. -/
def sampleMarshal (payload : Cosign) : GoBytes := asciiBytes payload.Image.Name

/-- A destination reference for concrete runs, `registry.example/app:v2`. -/
def sampleDst : Reference :=
  { Context := { Registry := "registry.example", RepositoryStr := "app" }, Identifier := "v2",
    original := "registry.example/app:v2".toList }

/-- A signed entity for concrete runs. -/
def sampleEntity : ModelEntity :=
  { digest := { Algorithm := "sha256", Hex := "abc" }, pending := none }

/-! ### The serialized payload

The serializer `payload.Cosign.MarshalJSON` belongs to sigstore, not to this repository. -/

/-- Lexicographic order of two texts by code point, which is the order of their UTF-8
bytes. -/
def lexLE : List Char → List Char → Bool
  | [], _ => true
  | _ :: _, [] => false
  | a :: as, b :: bs =>
    decide (a.toNat < b.toNat) || (decide (a.toNat = b.toNat) && lexLE as bs)

/-- Modelled from the spec: the stable key ordering of the serializer (section 4.5), the keys
in ascending order. -/
def sortedKeys (keys : List String) : List String :=
  keys.insertionSort (fun a b => lexLE a.toList b.toList = true)

/-- Modelled from the spec: the JSON text of a string value, between double quotes (escape
sequences are not modelled). -/
def jsonString (s : String) : String := "\"" ++ s ++ "\""

/-- Modelled from the spec: the serialized signing payload (sections 4.5 and 8), the JSON
document with the image as `repository@digest` and the annotation mapping, its keys in
stable order. `keys` lists the keys of the annotation map in the order the runtime happens to
enumerate them, which Go leaves unspecified and which depends on how the map was built. -/
def marshalCosign (payload : Cosign) (keys : List String) : String :=
  "\x7b\"image\":" ++ jsonString payload.Image.Name ++ ",\"annotations\":\x7b" ++
    ",".intercalate ((sortedKeys keys).map
      (fun k => jsonString k ++ ":" ++ jsonString ((payload.Annotations k).getD ""))) ++
    "\x7d\x7d"

/-- The reference model completed for whole runs of `Sign.Run`: the sample reference parser,
a discovery step that finds the single-manifest entity `sampleEntity`, and the modelled
serializer (the texts of the sample are ASCII). -/
def endToEndModel : Collaborators :=
  { referenceModel (fun payload => asciiBytes (marshalCosign payload ["test"])) with
    ParseReference := nameParseReference
    SignedEntity := fun _ _ => .ok sampleEntity }

/-- A sign command whose source and destination are in different repositories. -/
def sampleSign : Sign :=
  { SourceImage := "registry.example/base:v1".toList,
    DestImage := "registry.example/app:v2".toList }

/-- The signature entry the handler publishes in the reference model for a digest. -/
def modelSig (marshal : Cosign → GoBytes) (signer : GoBytes → GoBytes) (dstRef : Reference)
    (d : Hash) : SigEntry :=
  { Payload := marshal (cosignPayload dstRef.Context d (mapLiteral testAnnotations)),
    Base64Signature :=
      stdEncode (signer (marshal (cosignPayload dstRef.Context d (mapLiteral testAnnotations)))) }

/-- The reference model with a digest lookup that fails for the entity whose digest is
`sha256:bad`. -/
def failingModel (marshal : Cosign → GoBytes) : Collaborators :=
  { referenceModel marshal with
    EntityDigest := fun se =>
      if se.digest.Hex = "bad" then .error (.external "digest unavailable") else .ok se.digest }

/-- An entity whose digest lookup fails in `failingModel`. -/
def badEntity : ModelEntity :=
  { digest := { Algorithm := "sha256", Hex := "bad" }, pending := none }

end OCI

/-! # Theorems -/

namespace OCI

theorem mem_alnumChars_iff (c : Char) : c ∈ alnumChars ↔ isAsciiAlnum c = true := by
  constructor
  · intro h
    simp only [alnumChars, String.toList] at h
    simp only [List.mem_cons, List.mem_singleton, List.not_mem_nil, or_false] at h
    rcases h with h | h | h | h | h | h | h | h | h | h | h | h | h | h | h | h | h | h | h | h |
      h | h | h | h | h | h | h | h | h | h | h | h | h | h | h | h | h | h | h | h | h | h | h |
      h | h | h | h | h | h | h | h | h | h | h | h | h | h | h | h | h | h | h <;>
    (subst h; decide)
  · intro h
    have hc : c = Char.ofNat c.toNat := by simp
    simp only [isAsciiAlnum, Bool.or_eq_true, Bool.and_eq_true, decide_eq_true_eq] at h
    generalize c.toNat = n at h hc
    subst hc
    rcases h with (⟨h1, h2⟩ | ⟨h1, h2⟩) | ⟨h1, h2⟩ <;> interval_cases n <;> decide

/-! ### Membership in the sub-patterns -/

theorem charClass_rmatch_iff (cs x : List Char) :
    (charClass cs).rmatch x = true ↔ ∃ c ∈ cs, x = [c] := by
  induction cs with
  | nil =>
    simp only [charClass, List.foldr_nil, List.not_mem_nil, false_and, exists_false, iff_false]
    simp [RegularExpression.zero_rmatch]
  | cons d ds ih =>
    have hd : charClass (d :: ds) = RegularExpression.char d + charClass ds := rfl
    rw [hd, RegularExpression.add_rmatch_iff, RegularExpression.char_rmatch_iff, ih]
    constructor
    · rintro (h | ⟨c, hc, h⟩)
      · exact ⟨d, List.mem_cons_self _ _, h⟩
      · exact ⟨c, List.mem_cons_of_mem _ hc, h⟩
    · rintro ⟨c, hc, h⟩
      rcases List.mem_cons.mp hc with rfl | hc
      · exact Or.inl h
      · exact Or.inr ⟨c, hc, h⟩

theorem star_rmatch_nil (P : RegularExpression Char) : (RegularExpression.star P).rmatch [] = true := by
  rw [RegularExpression.star_rmatch_iff]
  exact ⟨[], rfl, by simp⟩

theorem star_rmatch_append (P : RegularExpression Char) (t u : List Char)
    (ht : P.rmatch t = true) (hu : (RegularExpression.star P).rmatch u = true) :
    (RegularExpression.star P).rmatch (t ++ u) = true := by
  by_cases hnil : t = []
  · subst hnil; simpa using hu
  · rw [RegularExpression.star_rmatch_iff] at hu ⊢
    obtain ⟨S, rfl, hS⟩ := hu
    refine ⟨t :: S, by simp, ?_⟩
    intro y hy
    rcases List.mem_cons.mp hy with rfl | hy
    · exact ⟨hnil, ht⟩
    · exact hS y hy

/-- The strings of `[A-Za-z0-9]+` are the non-empty all-alphanumeric ones. -/
theorem alnumPlus_rmatch_iff (x : List Char) :
    alnumPlus.rmatch x = true ↔ x ≠ [] ∧ ∀ c ∈ x, isAsciiAlnum c = true := by
  unfold alnumPlus plus1
  rw [RegularExpression.mul_rmatch_iff]
  constructor
  · rintro ⟨t, u, rfl, ht, hu⟩
    rw [charClass_rmatch_iff] at ht
    obtain ⟨c, hc, rfl⟩ := ht
    rw [RegularExpression.star_rmatch_iff] at hu
    obtain ⟨S, rfl, hS⟩ := hu
    refine ⟨by simp, ?_⟩
    intro d hd
    rcases List.mem_append.mp hd with hd | hd
    · rw [List.mem_singleton] at hd
      subst hd
      exact (mem_alnumChars_iff _).mp hc
    · rw [List.mem_flatten] at hd
      obtain ⟨l, hl, hdl⟩ := hd
      obtain ⟨_, hl2⟩ := hS l hl
      rw [charClass_rmatch_iff] at hl2
      obtain ⟨e, he, rfl⟩ := hl2
      rw [List.mem_singleton] at hdl
      subst hdl
      exact (mem_alnumChars_iff _).mp he
  · rintro ⟨hne, hall⟩
    cases x with
    | nil => exact absurd rfl hne
    | cons c u =>
      refine ⟨[c], u, rfl, ?_, ?_⟩
      · rw [charClass_rmatch_iff]
        exact ⟨c, (mem_alnumChars_iff c).mpr (hall c (List.mem_cons_self _ _)), rfl⟩
      · have hu : ∀ d ∈ u, isAsciiAlnum d = true :=
          fun d hd => hall d (List.mem_cons_of_mem _ hd)
        clear hall hne
        induction u with
        | nil => exact star_rmatch_nil _
        | cons d u ih =>
          have h1 : (charClass alnumChars).rmatch [d] = true := by
            rw [charClass_rmatch_iff]
            exact ⟨d, (mem_alnumChars_iff d).mpr (hu d (List.mem_cons_self _ _)), rfl⟩
          exact star_rmatch_append _ [d] u h1 (ih (fun e he => hu e (List.mem_cons_of_mem _ he)))

/-- The strings of `([-._:@+]|--)`. -/
theorem sepOrDouble_rmatch_iff (x : List Char) :
    sepOrDouble.rmatch x = true ↔ (∃ c ∈ sepChars, x = [c]) ∨ x = ['-', '-'] := by
  unfold sepOrDouble
  rw [RegularExpression.add_rmatch_iff, charClass_rmatch_iff, RegularExpression.mul_rmatch_iff]
  constructor
  · rintro (h | ⟨t, u, rfl, ht, hu⟩)
    · exact Or.inl h
    · rw [RegularExpression.char_rmatch_iff] at ht hu
      subst ht hu
      exact Or.inr rfl
  · rintro (h | rfl)
    · exact Or.inl h
    · exact Or.inr ⟨['-'], ['-'], rfl, by rw [RegularExpression.char_rmatch_iff],
        by rw [RegularExpression.char_rmatch_iff]⟩

/-! ### From the pattern to the scanner -/

theorem scan_cons (p : Phase) (c : Char) (s : List Char) :
    scan p (c :: s) = (match p.step c with
      | none => false
      | some q => scan q s) := by
  cases p <;> rfl

theorem scan_inside_alnum (c : Char) (s : List Char) (hc : isAsciiAlnum c = true) :
    scan .inside (c :: s) = scan .inside s := by
  rw [scan_cons]; simp [Phase.step, hc]

theorem scan_expect_alnum (c : Char) (s : List Char) (hc : isAsciiAlnum c = true) :
    scan .expect (c :: s) = scan .inside s := by
  rw [scan_cons]; simp [Phase.step, hc]

theorem scan_dash_alnum (c : Char) (s : List Char) (hc : isAsciiAlnum c = true) :
    scan .dash (c :: s) = scan .inside s := by
  rw [scan_cons]; simp [Phase.step, hc]

theorem scan_inside_dash (s : List Char) : scan .inside ('-' :: s) = scan .dash s := by
  rw [scan_cons]
  have h : isAsciiAlnum '-' = false := by decide
  simp [Phase.step, h]

theorem scan_dash_dash (s : List Char) : scan .dash ('-' :: s) = scan .expect s := by
  rw [scan_cons]
  have h : isAsciiAlnum '-' = false := by decide
  simp [Phase.step, h]

theorem scan_inside_sep (c : Char) (s : List Char) (hc : isSeparator c = true)
    (hd : c ≠ '-') : scan .inside (c :: s) = scan .expect s := by
  have h : isAsciiAlnum c = false := by
    simp only [isSeparator, Bool.or_eq_true, beq_iff_eq] at hc
    rcases hc with (((((rfl | rfl) | rfl) | rfl) | rfl) | rfl) | rfl <;> decide
  rw [scan_cons]; simp [Phase.step, h, hd, hc]

theorem scan_inside_alnums (t s : List Char) (ht : ∀ c ∈ t, isAsciiAlnum c = true) :
    scan .inside (t ++ s) = scan .inside s := by
  induction t with
  | nil => rfl
  | cons c t ih =>
    rw [List.cons_append, scan_inside_alnum c _ (ht c (List.mem_cons_self _ _))]
    exact ih (fun d hd => ht d (List.mem_cons_of_mem _ hd))

theorem scan_expect_alnumPlus (t s : List Char) (ht : alnumPlus.rmatch t = true) :
    scan .expect (t ++ s) = scan .inside s := by
  rw [alnumPlus_rmatch_iff] at ht
  obtain ⟨hne, hall⟩ := ht
  cases t with
  | nil => exact absurd rfl hne
  | cons c t =>
    rw [List.cons_append, scan_expect_alnum c _ (hall c (List.mem_cons_self _ _))]
    exact scan_inside_alnums t s (fun d hd => hall d (List.mem_cons_of_mem _ hd))

theorem scan_dash_alnumPlus (t s : List Char) (ht : alnumPlus.rmatch t = true) :
    scan .dash (t ++ s) = scan .inside s := by
  rw [alnumPlus_rmatch_iff] at ht
  obtain ⟨hne, hall⟩ := ht
  cases t with
  | nil => exact absurd rfl hne
  | cons c t =>
    rw [List.cons_append, scan_dash_alnum c _ (hall c (List.mem_cons_self _ _))]
    exact scan_inside_alnums t s (fun d hd => hall d (List.mem_cons_of_mem _ hd))

/-- A separator (or `--`) followed by an alphanumeric run brings the scanner back inside. -/
theorem scan_inside_sep_alnumPlus (e t s : List Char) (he : sepOrDouble.rmatch e = true)
    (ht : alnumPlus.rmatch t = true) : scan .inside (e ++ (t ++ s)) = scan .inside s := by
  rw [sepOrDouble_rmatch_iff] at he
  rcases he with ⟨c, hc, rfl⟩ | rfl
  · by_cases hd : c = '-'
    · subst hd
      show scan .inside ('-' :: (t ++ s)) = _
      rw [scan_inside_dash, scan_dash_alnumPlus t s ht]
    · have hsep : isSeparator c = true := by
        simp only [sepChars, List.mem_cons, List.mem_singleton, List.not_mem_nil, or_false] at hc
        rcases hc with rfl | rfl | rfl | rfl | rfl | rfl <;> decide
      show scan .inside (c :: (t ++ s)) = _
      rw [scan_inside_sep c _ hsep hd, scan_expect_alnumPlus t s ht]
  · show scan .inside ('-' :: '-' :: (t ++ s)) = _
    rw [scan_inside_dash, scan_dash_dash, scan_expect_alnumPlus t s ht]

theorem scan_inside_star_sep (x s : List Char)
    (hx : (RegularExpression.star (sepOrDouble * alnumPlus)).rmatch x = true) :
    scan .inside (x ++ s) = scan .inside s := by
  rw [RegularExpression.star_rmatch_iff] at hx
  obtain ⟨S, rfl, hS⟩ := hx
  induction S with
  | nil => rfl
  | cons y S ih =>
    obtain ⟨_, hy⟩ := hS y (List.mem_cons_self _ _)
    rw [RegularExpression.mul_rmatch_iff] at hy
    obtain ⟨e, t, rfl, he, ht⟩ := hy
    rw [List.flatten_cons, List.append_assoc, List.append_assoc,
      scan_inside_sep_alnumPlus e t _ he ht]
    exact ih (fun z hz => hS z (List.mem_cons_of_mem _ hz))

theorem scan_expect_component (x s : List Char) (hx : component.rmatch x = true) :
    scan .expect (x ++ s) = scan .inside s := by
  unfold component at hx
  rw [RegularExpression.mul_rmatch_iff] at hx
  obtain ⟨t, u, rfl, ht, hu⟩ := hx
  rw [List.append_assoc, scan_expect_alnumPlus t _ ht, scan_inside_star_sep u s hu]

theorem scan_inside_star_slash (x s : List Char)
    (hx : (RegularExpression.star (RegularExpression.char '/' * component)).rmatch x = true) :
    scan .inside (x ++ s) = scan .inside s := by
  rw [RegularExpression.star_rmatch_iff] at hx
  obtain ⟨S, rfl, hS⟩ := hx
  induction S with
  | nil => rfl
  | cons y S ih =>
    obtain ⟨_, hy⟩ := hS y (List.mem_cons_self _ _)
    rw [RegularExpression.mul_rmatch_iff] at hy
    obtain ⟨e, t, rfl, he, ht⟩ := hy
    rw [RegularExpression.char_rmatch_iff] at he
    subst he
    rw [List.flatten_cons, List.append_assoc, List.append_assoc]
    show scan .inside ('/' :: (t ++ _)) = _
    rw [scan_inside_sep '/' _ (by decide) (by decide), scan_expect_component t _ ht]
    exact ih (fun z hz => hS z (List.mem_cons_of_mem _ hz))

/-- Every string the pattern matches is accepted by the scanner. -/
theorem scan_of_MatchString (x : List Char) (hx : MatchString x = true) :
    scan .expect x = true := by
  unfold MatchString ociReferenceRegex at hx
  rw [RegularExpression.mul_rmatch_iff] at hx
  obtain ⟨t, u, rfl, ht, hu⟩ := hx
  have h := scan_inside_star_slash u [] hu
  rw [List.append_nil] at h
  rw [scan_expect_component t u ht, h]
  rfl

/-! ### From the scanner to the pattern -/

theorem alnumPlus_singleton (a : Char) (ha : isAsciiAlnum a = true) :
    alnumPlus.rmatch [a] = true := by
  rw [alnumPlus_rmatch_iff]
  refine ⟨by simp, ?_⟩
  intro c hc
  rw [List.mem_singleton] at hc
  subst hc
  exact ha

theorem alnumPlus_cons (a : Char) (t : List Char) (ha : isAsciiAlnum a = true)
    (ht : alnumPlus.rmatch t = true) : alnumPlus.rmatch (a :: t) = true := by
  rw [alnumPlus_rmatch_iff] at ht ⊢
  refine ⟨by simp, ?_⟩
  intro c hc
  rcases List.mem_cons.mp hc with rfl | hc
  · exact ha
  · exact ht.2 c hc

/-- Decomposition of a match of the whole pattern. -/
theorem MatchString_iff (x : List Char) :
    MatchString x = true ↔ ∃ t u v, x = t ++ u ++ v ∧ alnumPlus.rmatch t = true ∧
      (RegularExpression.star (sepOrDouble * alnumPlus)).rmatch u = true ∧
      (RegularExpression.star (RegularExpression.char '/' * component)).rmatch v = true := by
  unfold MatchString ociReferenceRegex
  rw [RegularExpression.mul_rmatch_iff]
  constructor
  · rintro ⟨c, v, rfl, hc, hv⟩
    unfold component at hc
    rw [RegularExpression.mul_rmatch_iff] at hc
    obtain ⟨t, u, rfl, ht, hu⟩ := hc
    exact ⟨t, u, v, rfl, ht, hu, hv⟩
  · rintro ⟨t, u, v, rfl, ht, hu, hv⟩
    refine ⟨t ++ u, v, rfl, ?_, hv⟩
    unfold component
    rw [RegularExpression.mul_rmatch_iff]
    exact ⟨t, u, rfl, ht, hu⟩

theorem MatchString_singleton (a : Char) (ha : isAsciiAlnum a = true) :
    MatchString [a] = true := by
  rw [MatchString_iff]
  exact ⟨[a], [], [], rfl, alnumPlus_singleton a ha, star_rmatch_nil _, star_rmatch_nil _⟩

theorem MatchString_cons_alnum (a : Char) (s : List Char) (ha : isAsciiAlnum a = true)
    (hs : MatchString s = true) : MatchString (a :: s) = true := by
  rw [MatchString_iff] at hs ⊢
  obtain ⟨t, u, v, rfl, ht, hu, hv⟩ := hs
  exact ⟨a :: t, u, v, by simp, alnumPlus_cons a t ha ht, hu, hv⟩

theorem MatchString_replace_head (a c : Char) (s : List Char) (hc : isAsciiAlnum c = true)
    (hs : MatchString (a :: s) = true) : MatchString (c :: s) = true := by
  rw [MatchString_iff] at hs ⊢
  obtain ⟨t, u, v, hx, ht, hu, hv⟩ := hs
  rw [alnumPlus_rmatch_iff] at ht
  cases t with
  | nil => exact absurd rfl ht.1
  | cons b t =>
    simp only [List.cons_append, List.cons.injEq] at hx
    obtain ⟨_, rfl⟩ := hx
    refine ⟨c :: t, u, v, by simp, ?_, hu, hv⟩
    rw [alnumPlus_rmatch_iff]
    refine ⟨by simp, ?_⟩
    intro d hd
    rcases List.mem_cons.mp hd with rfl | hd
    · exact hc
    · exact ht.2 d (List.mem_cons_of_mem _ hd)

/-- Prefixing an accepted string with an alphanumeric and a separator (or `--`). -/
theorem MatchString_prepend_sep (a : Char) (e s : List Char) (ha : isAsciiAlnum a = true)
    (he : sepOrDouble.rmatch e = true) (hs : MatchString s = true) :
    MatchString (a :: (e ++ s)) = true := by
  rw [MatchString_iff] at hs ⊢
  obtain ⟨t, u, v, rfl, ht, hu, hv⟩ := hs
  refine ⟨[a], (e ++ t) ++ u, v, by simp, alnumPlus_singleton a ha, ?_, hv⟩
  apply star_rmatch_append _ _ _ _ hu
  rw [RegularExpression.mul_rmatch_iff]
  exact ⟨e, t, rfl, he, ht⟩

/-- Prefixing an accepted string with an alphanumeric and a `/`. -/
theorem MatchString_prepend_slash (a : Char) (s : List Char) (ha : isAsciiAlnum a = true)
    (hs : MatchString s = true) : MatchString (a :: '/' :: s) = true := by
  have hs2 := hs
  unfold MatchString ociReferenceRegex at hs2
  rw [RegularExpression.mul_rmatch_iff] at hs2
  obtain ⟨c, v, rfl, hc, hv⟩ := hs2
  rw [MatchString_iff]
  refine ⟨[a], [], ('/' :: c) ++ v, by simp, alnumPlus_singleton a ha, star_rmatch_nil _, ?_⟩
  apply star_rmatch_append _ _ _ _ hv
  rw [RegularExpression.mul_rmatch_iff]
  exact ⟨['/'], c, rfl, by rw [RegularExpression.char_rmatch_iff], hc⟩

theorem sepOrDouble_single (c : Char) (hc : isSeparator c = true) (hs : c ≠ '/') :
    sepOrDouble.rmatch [c] = true := by
  rw [sepOrDouble_rmatch_iff]
  left
  refine ⟨c, ?_, rfl⟩
  simp only [isSeparator, Bool.or_eq_true, beq_iff_eq] at hc
  simp only [sepChars, List.mem_cons, List.mem_singleton, List.not_mem_nil, or_false]
  tauto

/-- Every string the scanner accepts is matched by the pattern; the statements for the two
other states describe the string once the characters already consumed are put back. -/
theorem MatchString_of_scan (s : List Char) :
    (scan .expect s = true → MatchString s = true) ∧
    (scan .inside s = true → ∀ a, isAsciiAlnum a = true → MatchString (a :: s) = true) ∧
    (scan .dash s = true → ∀ a, isAsciiAlnum a = true → MatchString (a :: '-' :: s) = true) := by
  induction s with
  | nil =>
    refine ⟨fun h => by simp [scan] at h, fun _ a ha => MatchString_singleton a ha,
      fun h => by simp [scan] at h⟩
  | cons c s ih =>
    obtain ⟨ihE, ihI, ihD⟩ := ih
    by_cases hc : isAsciiAlnum c = true
    · refine ⟨?_, ?_, ?_⟩
      · rw [scan_expect_alnum c s hc]
        exact fun h => ihI h c hc
      · rw [scan_inside_alnum c s hc]
        exact fun h a ha => MatchString_cons_alnum a _ ha (ihI h c hc)
      · rw [scan_dash_alnum c s hc]
        intro h a ha
        exact MatchString_prepend_sep a ['-'] (c :: s) ha
          (sepOrDouble_single '-' (by decide) (by decide)) (ihI h c hc)
    · have hc2 : isAsciiAlnum c = false := by simpa using hc
      refine ⟨?_, ?_, ?_⟩
      · intro h
        rw [scan_cons] at h
        simp [Phase.step, hc2] at h
      · by_cases hd : c = '-'
        · subst hd
          rw [scan_inside_dash]
          exact fun h a ha => ihD h a ha
        · by_cases hsep : isSeparator c = true
          · rw [scan_inside_sep c s hsep hd]
            intro h a ha
            by_cases hsl : c = '/'
            · subst hsl
              exact MatchString_prepend_slash a s ha (ihE h)
            · exact MatchString_prepend_sep a [c] s ha (sepOrDouble_single c hsep hsl) (ihE h)
          · intro h
            rw [scan_cons] at h
            simp [Phase.step, hc2, hd, hsep] at h
      · by_cases hd : c = '-'
        · subst hd
          rw [scan_dash_dash]
          intro h a ha
          exact MatchString_prepend_sep a ['-', '-'] s ha
            ((sepOrDouble_rmatch_iff _).mpr (Or.inr rfl)) (ihE h)
        · intro h
          rw [scan_cons] at h
          simp [Phase.step, hc2, hd] at h

/-- The pattern and the scanner accept the same strings. -/
theorem MatchString_eq_scan (s : List Char) : MatchString s = scan .expect s := by
  cases h : scan .expect s with
  | true => exact (MatchString_of_scan s).1 h
  | false =>
    cases h2 : MatchString s with
    | false => rfl
    | true => rw [scan_of_MatchString s h2] at h; exact absurd h (by simp)

/-! ### From the scanner to the description in words -/

theorem runsAux_prefix (s cur : List Char) (hcur : cur ≠ []) :
    ∃ r ∈ runsAux cur s, cur <+: r := by
  induction s generalizing cur with
  | nil =>
    refine ⟨cur, ?_, List.prefix_refl _⟩
    cases cur with
    | nil => exact absurd rfl hcur
    | cons a t => simp [runsAux]
  | cons c s ih =>
    by_cases hc : isAsciiAlnum c = true
    · refine ⟨cur, ?_, List.prefix_refl _⟩
      cases cur with
      | nil => exact absurd rfl hcur
      | cons a t => simp [runsAux, hc]
    · have hc2 : isAsciiAlnum c = false := by simpa using hc
      obtain ⟨r, hr, hpre⟩ := ih (cur ++ [c]) (by simp)
      refine ⟨r, ?_, (List.prefix_append cur [c]).trans hpre⟩
      simpa [runsAux, hc2] using hr

theorem runsAux_all_false (s cur : List Char) (hcur : cur ≠ [])
    (hbad : ∀ r, cur <+: r → allowedRun r = false) :
    (runsAux cur s).all allowedRun = false := by
  obtain ⟨r, hr, hpre⟩ := runsAux_prefix s cur hcur
  rw [List.all_eq_false]
  exact ⟨r, hr, by simp [hbad r hpre]⟩

theorem lastAlnum_cons_alnum (c : Char) (s : List Char) (hc : isAsciiAlnum c = true) :
    lastAlnum (c :: s) = (s.isEmpty || lastAlnum s) := by
  cases s with
  | nil => simp [lastAlnum, hc]
  | cons d s => simp [lastAlnum, List.getLast?_cons_cons]

theorem lastAlnum_cons_other (c : Char) (s : List Char) (hc : isAsciiAlnum c = false) :
    lastAlnum (c :: s) = lastAlnum s := by
  cases s with
  | nil => simp [lastAlnum, hc]
  | cons d s => simp [lastAlnum, List.getLast?_cons_cons]

/-- After a complete allowed run that no character can extend, the remaining input must start
with an alphanumeric. -/
theorem runs_after_closed (cur s : List Char) (hcur : cur ≠ [])
    (hok : allowedRun cur = true)
    (hbad : ∀ d r, (cur ++ [d]) <+: r → allowedRun r = false) :
    (lastAlnum s = true ∧ (runsAux cur s).all allowedRun = true) ↔
      (headAlnum s = true ∧ lastAlnum s = true ∧ (runsAux [] s).all allowedRun = true) := by
  cases s with
  | nil => simp [lastAlnum]
  | cons d s =>
    by_cases hd : isAsciiAlnum d = true
    · have h1 : runsAux cur (d :: s) = cur :: runsAux [] s := by
        cases cur with
        | nil => exact absurd rfl hcur
        | cons a t => simp [runsAux, hd]
      have h2 : runsAux [] (d :: s) = runsAux [] s := by simp [runsAux, hd]
      rw [h1, h2]
      simp [headAlnum, hd, hok]
    · have hd2 : isAsciiAlnum d = false := by simpa using hd
      have h1 : runsAux cur (d :: s) = runsAux (cur ++ [d]) s := by simp [runsAux, hd2]
      rw [h1, runsAux_all_false s (cur ++ [d]) (by simp) (hbad d)]
      simp [headAlnum, hd2]

theorem allowedRun_single_false (c d : Char) (hc : c ≠ '-') (r : List Char)
    (h : ([c] ++ [d]) <+: r) : allowedRun r = false := by
  obtain ⟨t, rfl⟩ := h
  cases t with
  | nil => simp [allowedRun, hc]
  | cons e t => simp [allowedRun]

theorem allowedRun_dash_other (d : Char) (hd : d ≠ '-') (r : List Char)
    (h : ['-', d] <+: r) : allowedRun r = false := by
  obtain ⟨t, rfl⟩ := h
  cases t with
  | nil => simp [allowedRun, hd]
  | cons e t => simp [allowedRun]

theorem allowedRun_triple_false (d : Char) (r : List Char)
    (h : (['-', '-'] ++ [d]) <+: r) : allowedRun r = false := by
  obtain ⟨t, rfl⟩ := h
  simp [allowedRun]

/-- What the scanner accepts from each state, in terms of the runs of the remaining input. -/
theorem scan_iff_runs (s : List Char) :
    (scan .expect s = true ↔
      (headAlnum s = true ∧ lastAlnum s = true ∧ allOk s = true ∧
        (runsAux [] s).all allowedRun = true)) ∧
    (scan .inside s = true ↔
      ((s = [] ∨ lastAlnum s = true) ∧ allOk s = true ∧
        (runsAux [] s).all allowedRun = true)) ∧
    (scan .dash s = true ↔
      (lastAlnum s = true ∧ allOk s = true ∧ (runsAux ['-'] s).all allowedRun = true)) := by
  induction s with
  | nil => simp [scan, headAlnum, lastAlnum, allOk, runsAux]
  | cons c s ih =>
    obtain ⟨ihE, ihI, ihD⟩ := ih
    by_cases hc : isAsciiAlnum c = true
    · have hr : runsAux [] (c :: s) = runsAux [] s := by simp [runsAux, hc]
      have hrd : runsAux ['-'] (c :: s) = ['-'] :: runsAux [] s := by simp [runsAux, hc]
      have hok : allOk (c :: s) = allOk s := by simp [allOk, hc]
      have hl : lastAlnum (c :: s) = true ↔ (s = [] ∨ lastAlnum s = true) := by
        rw [lastAlnum_cons_alnum c s hc]; simp
      have hdash : allowedRun ['-'] = true := by decide
      refine ⟨?_, ?_, ?_⟩
      · rw [scan_expect_alnum c s hc, ihI, hr, hok, hl]
        simp [headAlnum, hc]
      · rw [scan_inside_alnum c s hc, ihI, hr, hok, hl]
        simp
      · rw [scan_dash_alnum c s hc, ihI, hrd, hok, hl]
        simp [hdash]
    · have hc2 : isAsciiAlnum c = false := by simpa using hc
      have hl : lastAlnum (c :: s) = lastAlnum s := lastAlnum_cons_other c s hc2
      have hr : runsAux [] (c :: s) = runsAux [c] s := by simp [runsAux, hc2]
      have hok : allOk (c :: s) = (isSeparator c && allOk s) := by simp [allOk, hc2]
      refine ⟨?_, ?_, ?_⟩
      · rw [scan_cons]
        simp [Phase.step, hc2, headAlnum]
      · by_cases hd : c = '-'
        · subst hd
          rw [scan_inside_dash, ihD, hl, hr, hok]
          have : isSeparator '-' = true := by decide
          simp [this]
        · by_cases hsep : isSeparator c = true
          · rw [scan_inside_sep c s hsep hd, ihE, hl, hr, hok, hsep]
            have hclosed := runs_after_closed [c] s (by simp) (by simp [allowedRun, hsep])
              (fun d r h => allowedRun_single_false c d hd r h)
            simp only [Bool.true_and, List.cons_ne_nil, false_or]
            constructor
            · rintro ⟨h1, h2, h3, h4⟩
              exact ⟨h2, h3, (hclosed.mpr ⟨h1, h2, h4⟩).2⟩
            · rintro ⟨h2, h3, h4⟩
              obtain ⟨h1, _, h5⟩ := hclosed.mp ⟨h2, h4⟩
              exact ⟨h1, h2, h3, h5⟩
          · have hsep2 : isSeparator c = false := by simpa using hsep
            rw [scan_cons, hok]
            simp [Phase.step, hc2, hd, hsep2]
      · by_cases hd : c = '-'
        · subst hd
          have hr2 : runsAux ['-'] ('-' :: s) = runsAux ['-', '-'] s := by simp [runsAux, hc2]
          have hsep : isSeparator '-' = true := by decide
          rw [scan_dash_dash, ihE, hl, hr2, hok, hsep]
          have hclosed := runs_after_closed ['-', '-'] s (by simp) (by decide)
            (fun d r h => allowedRun_triple_false d r h)
          simp only [Bool.true_and]
          constructor
          · rintro ⟨h1, h2, h3, h4⟩
            exact ⟨h2, h3, (hclosed.mpr ⟨h1, h2, h4⟩).2⟩
          · rintro ⟨h2, h3, h4⟩
            obtain ⟨h1, _, h5⟩ := hclosed.mp ⟨h2, h4⟩
            exact ⟨h1, h2, h3, h5⟩
        · have hr2 : runsAux ['-'] (c :: s) = runsAux ['-', c] s := by simp [runsAux, hc2]
          rw [scan_cons, hr2, runsAux_all_false s ['-', c] (by simp)
            (fun r h => allowedRun_dash_other c hd r h)]
          simp [Phase.step, hc2, hd]

theorem allOk_inner (s : List Char) (hh : headAlnum s = true) (hl : lastAlnum s = true) :
    allOk (inner s) = allOk s := by
  cases s with
  | nil => simp [headAlnum] at hh
  | cons c t =>
    have hc : isAsciiAlnum c = true := by simpa [headAlnum] using hh
    rcases List.eq_nil_or_concat t with rfl | ⟨u, d, rfl⟩
    · simp [inner, allOk, hc]
    · have hd : isAsciiAlnum d = true := by
        have : (c :: (u ++ [d])).getLast? = some d := by
          rw [← List.cons_append, List.getLast?_append]
          simp
        simpa [lastAlnum, this] using hl
      simp [inner, allOk, hc, hd, List.dropLast_concat]

/-- The scanner accepts exactly the strings the description in words allows. -/
theorem scan_eq_grammarSpec (s : List Char) : scan .expect s = grammarSpec s := by
  have h := (scan_iff_runs s).1
  cases hs : grammarSpec s with
  | true =>
    rw [h]
    simp only [grammarSpec, Bool.and_eq_true] at hs
    obtain ⟨⟨⟨⟨_, hh⟩, hl⟩, hin⟩, hruns⟩ := hs
    refine ⟨hh, hl, ?_, hruns⟩
    rw [← allOk_inner s hh hl]
    exact hin
  | false =>
    cases h2 : scan .expect s with
    | false => rfl
    | true =>
      obtain ⟨hh, hl, hok, hruns⟩ := h.mp h2
      have hne : s.isEmpty = false := by
        cases s with
        | nil => simp [headAlnum] at hh
        | cons c t => rfl
      have hin : (inner s).all (fun c => isAsciiAlnum c || isSeparator c) = true := by
        have := allOk_inner s hh hl
        rw [hok] at this
        exact this
      have : grammarSpec s = true := by
        simp only [grammarSpec, Bool.and_eq_true]
        exact ⟨⟨⟨⟨by simp [hne], hh⟩, hl⟩, hin⟩, hruns⟩
      rw [this] at hs
      exact absurd hs (by simp)

/-- The pattern accepts exactly the strings described in words. -/
theorem MatchString_eq_grammarSpec (s : List Char) : MatchString s = grammarSpec s := by
  rw [MatchString_eq_scan, scan_eq_grammarSpec]

/-! ### The computed runs are the maximal runs -/

theorem getLast?_cons_of_ne (a : Char) (u : List Char) (hu : u ≠ []) :
    (a :: u).getLast? = u.getLast? := by
  cases u with
  | nil => exact absurd rfl hu
  | cons b u => exact List.getLast?_cons_cons

theorem mem_runsAux_iff (s cur r : List Char) :
    r ∈ runsAux cur s ↔
      ∃ u t v, s = u ++ t ++ v ∧ (∀ c ∈ t, isAsciiAlnum c = false) ∧
        (∀ c, v.head? = some c → isAsciiAlnum c = true) ∧
        ((u = [] ∧ r = cur ++ t ∧ r ≠ []) ∨
          (u ≠ [] ∧ (∀ c, u.getLast? = some c → isAsciiAlnum c = true) ∧ r = t ∧ t ≠ [])) := by
  induction s generalizing cur with
  | nil =>
    constructor
    · intro h
      refine ⟨[], [], [], rfl, by simp, by simp, Or.inl ⟨rfl, ?_, ?_⟩⟩
      · cases cur with
        | nil => simp [runsAux] at h
        | cons a t => simpa [runsAux] using h
      · cases cur with
        | nil => simp [runsAux] at h
        | cons a t => simp [runsAux] at h; simp [h]
    · rintro ⟨u, t, v, hs, _, _, h⟩
      have hu : u = [] := by
        cases u with
        | nil => rfl
        | cons a u => simp at hs
      have ht : t = [] := by
        cases t with
        | nil => rfl
        | cons a t => subst hu; simp at hs
      rcases h with ⟨_, hr, hne⟩ | ⟨hne, _⟩
      · subst ht
        simp only [List.append_nil] at hr
        subst hr
        cases r with
        | nil => exact absurd rfl hne
        | cons a t => simp [runsAux]
      · exact absurd hu hne
  | cons c s ih =>
    by_cases hc : isAsciiAlnum c = true
    · have hrun : r ∈ runsAux cur (c :: s) ↔ ((r = cur ∧ cur ≠ []) ∨ r ∈ runsAux [] s) := by
        cases cur with
        | nil => simp [runsAux, hc]
        | cons a t => simp [runsAux, hc]
      rw [hrun, ih []]
      constructor
      · rintro (⟨rfl, hne⟩ | ⟨u, t, v, rfl, ht, hv, h⟩)
        · exact ⟨[], [], c :: s, rfl, by simp, by simpa using hc,
            Or.inl ⟨rfl, by simp, hne⟩⟩
        · refine ⟨c :: u, t, v, by simp, ht, hv, Or.inr ⟨by simp, ?_, ?_⟩⟩
          · rcases h with ⟨rfl, _, _⟩ | ⟨hne, hl, _, _⟩
            · simpa using hc
            · intro d hd
              rw [getLast?_cons_of_ne _ _ hne] at hd
              exact hl d hd
          · rcases h with ⟨_, hr, hne⟩ | ⟨_, _, hr, hne⟩
            · simp only [List.nil_append] at hr
              exact ⟨hr, hr ▸ hne⟩
            · exact ⟨hr, hne⟩
      · rintro ⟨u, t, v, hs, ht, hv, h⟩
        rcases h with ⟨rfl, hr, hne⟩ | ⟨hne, hl, hr, htne⟩
        · have htnil : t = [] := by
            cases t with
            | nil => rfl
            | cons a t =>
              simp only [List.nil_append, List.cons_append, List.cons.injEq] at hs
              have := ht a (List.mem_cons_self _ _)
              rw [← hs.1, hc] at this
              exact absurd this (by simp)
          subst htnil
          simp only [List.append_nil] at hr
          subst hr
          exact Or.inl ⟨rfl, hne⟩
        · right
          cases u with
          | nil => exact absurd rfl hne
          | cons a u =>
            simp only [List.cons_append, List.cons.injEq] at hs
            obtain ⟨_, hs⟩ := hs
            refine ⟨u, t, v, by simpa using hs, ht, hv, ?_⟩
            by_cases hu : u = []
            · exact Or.inl ⟨hu, by simpa using hr, by rw [hr]; exact htne⟩
            · refine Or.inr ⟨hu, ?_, hr, htne⟩
              intro d hd
              apply hl d
              rw [getLast?_cons_of_ne _ _ hu]
              exact hd
    · have hc2 : isAsciiAlnum c = false := by simpa using hc
      have hrun : runsAux cur (c :: s) = runsAux (cur ++ [c]) s := by simp [runsAux, hc2]
      rw [hrun, ih (cur ++ [c])]
      constructor
      · rintro ⟨u, t, v, rfl, ht, hv, h⟩
        rcases h with ⟨rfl, hr, hne⟩ | ⟨hne, hl, hr, htne⟩
        · refine ⟨[], c :: t, v, by simp, ?_, hv, Or.inl ⟨rfl, by simpa using hr, hne⟩⟩
          intro d hd
          rcases List.mem_cons.mp hd with rfl | hd
          · exact hc2
          · exact ht d hd
        · refine ⟨c :: u, t, v, by simp, ht, hv, Or.inr ⟨by simp, ?_, hr, htne⟩⟩
          intro d hd
          rw [getLast?_cons_of_ne _ _ hne] at hd
          exact hl d hd
      · rintro ⟨u, t, v, hs, ht, hv, h⟩
        rcases h with ⟨rfl, hr, hne⟩ | ⟨hne, hl, hr, htne⟩
        · cases t with
          | nil =>
            simp only [List.nil_append] at hs
            subst hs
            have := hv c (by simp)
            rw [hc2] at this
            exact absurd this (by simp)
          | cons a t =>
            simp only [List.nil_append, List.cons_append, List.cons.injEq] at hs
            obtain ⟨rfl, rfl⟩ := hs
            exact ⟨[], t, v, by simp, fun d hd => ht d (List.mem_cons_of_mem _ hd), hv,
              Or.inl ⟨rfl, by simpa using hr, hne⟩⟩
        · cases u with
          | nil => exact absurd rfl hne
          | cons a u =>
            simp only [List.cons_append, List.cons.injEq] at hs
            obtain ⟨rfl, hs⟩ := hs
            have hu : u ≠ [] := by
              rintro rfl
              have := hl c (by simp)
              rw [hc2] at this
              exact absurd this (by simp)
            refine ⟨u, t, v, by simpa using hs, ht, hv, Or.inr ⟨hu, ?_, hr, htne⟩⟩
            intro d hd
            apply hl d
            rw [getLast?_cons_of_ne _ _ hu]
            exact hd

/-- The computed runs are exactly the maximal runs of non-alphanumeric characters. -/
theorem mem_nonAlnumRuns_iff (s r : List Char) : r ∈ nonAlnumRuns s ↔ IsMaximalRun s r := by
  unfold nonAlnumRuns IsMaximalRun
  rw [mem_runsAux_iff]
  constructor
  · rintro ⟨u, t, v, hs, ht, hv, h⟩
    rcases h with ⟨rfl, hr, hne⟩ | ⟨hne, hl, hr, htne⟩
    · simp only [List.nil_append] at hr
      subst hr
      exact ⟨hne, ht, [], v, hs, by simp, hv⟩
    · subst hr
      exact ⟨htne, ht, u, v, hs, hl, hv⟩
  · rintro ⟨hne, hr, u, v, hs, hl, hv⟩
    refine ⟨u, r, v, hs, hr, hv, ?_⟩
    by_cases hu : u = []
    · exact Or.inl ⟨hu, by simp, hne⟩
    · exact Or.inr ⟨hu, hl, rfl, hne⟩


/-! ### Classes of strings outside the grammar -/

theorem MatchString_allOk (s : List Char) (h : MatchString s = true) : allOk s = true := by
  rw [MatchString_eq_scan] at h
  exact ((scan_iff_runs s).1.mp h).2.2.1

theorem MatchString_nil : MatchString [] = false := by
  rw [MatchString_eq_scan]; rfl

theorem MatchString_leading_slash (s : List Char) (h : s.head? = some '/') :
    MatchString s = false := by
  rw [MatchString_eq_grammarSpec]
  have : headAlnum s = false := by simp [headAlnum, h]; decide
  simp [grammarSpec, this]

theorem MatchString_bad_char (s : List Char) (c : Char) (hc : c ∈ s)
    (h1 : isAsciiAlnum c = false) (h2 : isSeparator c = false) : MatchString s = false := by
  cases h : MatchString s with
  | false => rfl
  | true =>
    have := MatchString_allOk s h
    simp only [allOk, List.all_eq_true, Bool.or_eq_true] at this
    rcases this c hc with h3 | h3
    · rw [h1] at h3; exact absurd h3 (by simp)
    · rw [h2] at h3; exact absurd h3 (by simp)

theorem isSeparator_not_alnum (c : Char) (hc : isSeparator c = true) :
    isAsciiAlnum c = false := by
  simp only [isSeparator, Bool.or_eq_true, beq_iff_eq] at hc
  rcases hc with (((((rfl | rfl) | rfl) | rfl) | rfl) | rfl) | rfl <;> decide

theorem scan_expect_sep (c : Char) (s : List Char) (hc : isSeparator c = true) :
    scan .expect (c :: s) = false := by
  rw [scan_cons]; simp [Phase.step, isSeparator_not_alnum c hc]

/-- Three separators in a row are rejected from every scanner state. -/
theorem scan_three_seps (p : Phase) (a b c : Char) (s : List Char)
    (ha : isSeparator a = true) (hb : isSeparator b = true) (hc : isSeparator c = true) :
    scan p (a :: b :: c :: s) = false := by
  have ha2 := isSeparator_not_alnum a ha
  have hb2 := isSeparator_not_alnum b hb
  cases p with
  | expect => exact scan_expect_sep a _ ha
  | inside =>
    by_cases h : a = '-'
    · subst h
      rw [scan_inside_dash]
      by_cases h2 : b = '-'
      · subst h2; rw [scan_dash_dash]; exact scan_expect_sep c _ hc
      · rw [scan_cons]; simp [Phase.step, hb2, h2]
    · rw [scan_inside_sep a _ ha h]; exact scan_expect_sep b _ hb
  | dash =>
    by_cases h : a = '-'
    · subst h; rw [scan_dash_dash]; exact scan_expect_sep b _ hb
    · rw [scan_cons]; simp [Phase.step, ha2, h]

theorem scan_append_false (u w : List Char) (hw : ∀ p, scan p w = false) (p : Phase) :
    scan p (u ++ w) = false := by
  induction u generalizing p with
  | nil => exact hw p
  | cons c u ih =>
    rw [List.cons_append, scan_cons]
    cases p.step c with
    | none => rfl
    | some q => exact ih q

theorem MatchString_long_run (u r v : List Char) (hlen : 3 ≤ r.length)
    (hr : ∀ c ∈ r, isSeparator c = true) : MatchString (u ++ r ++ v) = false := by
  rw [MatchString_eq_scan, List.append_assoc]
  apply scan_append_false
  intro p
  match r, hlen, hr with
  | a :: b :: c :: t, _, hr =>
    exact scan_three_seps p a b c (t ++ v) (hr a (by simp)) (hr b (by simp)) (hr c (by simp))

theorem MatchString_trailing_newline (s : List Char) : MatchString (s ++ ['\n']) = false := by
  rw [MatchString_eq_grammarSpec]
  have : lastAlnum (s ++ ['\n']) = false := by
    simp [lastAlnum, List.getLast?_append]; decide
  simp [grammarSpec, this]

/-! ### Claims about `parseOCIReference` -/

theorem MatchString_test_reference :
    MatchString "492618166700.dkr.ecr.us-west-2.amazonaws.com/demosign:v1".toList = true := by
  rw [MatchString_eq_grammarSpec]
  decide

theorem NewTag_original (s : List Char) (t : Reference) (h : NewTag s = .ok t) :
    t.original = s := by
  unfold NewTag at h
  dsimp only at h
  split_ifs at h <;> (split at h <;> first | (cases h; rfl) | cases h)

theorem NewDigest_original (s : List Char) (t : Reference) (h : NewDigest s = .ok t) :
    t.original = s := by
  unfold NewDigest at h
  split at h
  · cases h
  · dsimp only at h
    split_ifs at h
    split at h <;> first | (cases h; rfl) | cases h

theorem nameParseReference_String (s : List Char) (r : Reference)
    (h : nameParseReference s = .ok r) : r.String = s := by
  unfold nameParseReference at h
  split at h
  · rename_i t ht
    cases h
    exact NewTag_original s _ ht
  · split at h
    · rename_i d hd
      cases h
      exact NewDigest_original s _ hd
    · cases h

/-- C1 (as stated, refuted): the string `A` matches the grammar, yet `parseOCIReference` does
not succeed on it: it is handed to the downstream parser, which refuses a repository name with
an upper-case letter, and that error is what `parseOCIReference` returns. -/
theorem parseOCIReference_matching_string_fails :
    MatchString ['A'] = true ∧
    (parseOCIReference nameParseReference ['A']).result =
      .error (.external "could not parse reference") ∧
    (parseOCIReference nameParseReference ['A']).handedDown = [['A']] := by
  have hm : MatchString ['A'] = true := by decide
  refine ⟨hm, ?_, ?_⟩
  · simp only [parseOCIReference, hm]
    rfl
  · simp [parseOCIReference, hm]

/-- C1 (amended): for every string that matches the grammar and that the downstream reference
parser accepts, `parseOCIReference` succeeds with the downstream parser's reference and no
error, and that reference renders back, by `String()`, to the input string; a matching string
the downstream parser refuses makes `parseOCIReference` return the downstream error. The
string handed downstream is the input, unchanged. The downstream parser is any function
whose references render as the string they were parsed from. -/
theorem parseOCIReference_roundtrip (ParseReference : List Char → Except Err Reference)
    (ref : List Char)
    (hlib : ∀ s r, ParseReference s = .ok r → r.String = s)
    (hmatch : MatchString ref = true) :
    (∀ r, ParseReference ref = .ok r →
      (parseOCIReference ParseReference ref).result = .ok r ∧ r.String = ref) ∧
    (∀ r, (parseOCIReference ParseReference ref).result = .ok r →
      ParseReference ref = .ok r ∧ r.String = ref) ∧
    (∀ err, ParseReference ref = .error err →
      (parseOCIReference ParseReference ref).result = .error err) ∧
    (parseOCIReference ParseReference ref).handedDown = [ref] := by
  have hres : (parseOCIReference ParseReference ref).result = ParseReference ref := by
    simp [parseOCIReference, hmatch]
  refine ⟨?_, ?_, ?_, ?_⟩
  · intro r hr
    exact ⟨by rw [hres, hr], hlib ref r hr⟩
  · intro r hr
    rw [hres] at hr
    exact ⟨hr, hlib ref r hr⟩
  · intro err he
    rw [hres, he]
  · simp [parseOCIReference, hmatch]

/-- With the sample parser the round trip holds for every string it accepts. -/
theorem parseOCIReference_nameParseReference (ref : List Char) (r : Reference)
    (hmatch : MatchString ref = true) (hacc : nameParseReference ref = .ok r) :
    (parseOCIReference nameParseReference ref).result = .ok r ∧ r.String = ref := by
  refine ⟨?_, nameParseReference_String ref r hacc⟩
  simp [parseOCIReference, hmatch, hacc]

theorem parseOCIReference_roundtrip_witness :
    MatchString "492618166700.dkr.ecr.us-west-2.amazonaws.com/demosign:v1".toList = true ∧
    nameParseReference "492618166700.dkr.ecr.us-west-2.amazonaws.com/demosign:v1".toList =
      .ok { Context := { Registry := "492618166700.dkr.ecr.us-west-2.amazonaws.com",
                         RepositoryStr := "demosign" },
            Identifier := "v1",
            original := "492618166700.dkr.ecr.us-west-2.amazonaws.com/demosign:v1".toList } ∧
    ((parseOCIReference nameParseReference
        "492618166700.dkr.ecr.us-west-2.amazonaws.com/demosign:v1".toList).result =
      .ok { Context := { Registry := "492618166700.dkr.ecr.us-west-2.amazonaws.com",
                         RepositoryStr := "demosign" },
            Identifier := "v1",
            original := "492618166700.dkr.ecr.us-west-2.amazonaws.com/demosign:v1".toList } ∧
      Reference.String
        { Context := { Registry := "492618166700.dkr.ecr.us-west-2.amazonaws.com",
                       RepositoryStr := "demosign" },
          Identifier := "v1",
          original := "492618166700.dkr.ecr.us-west-2.amazonaws.com/demosign:v1".toList } =
        "492618166700.dkr.ecr.us-west-2.amazonaws.com/demosign:v1".toList) :=
  ⟨MatchString_test_reference, rfl,
    (parseOCIReference_roundtrip nameParseReference _ nameParseReference_String
      MatchString_test_reference).1 _ rfl⟩

/-- C2: a string that violates the grammar (in particular the empty string, a string with a
leading `/`, a string containing a character that is neither alphanumeric nor one of
`-._:@+/`, a string with three or more separators in a row) makes `parseOCIReference` return
the invalid-reference error and no reference, and nothing is handed to the downstream
parser. -/
theorem parseOCIReference_rejects {ρ : Type} (ParseReference : List Char → Except Err ρ)
    (ref : List Char)
    (h : MatchString ref = false ∨ ref = [] ∨ ref.head? = some '/' ∨
      (∃ c ∈ ref, isAsciiAlnum c = false ∧ isSeparator c = false) ∨
      (∃ u r v, ref = u ++ r ++ v ∧ 3 ≤ r.length ∧ ∀ c ∈ r, isSeparator c = true)) :
    (parseOCIReference ParseReference ref).result = .error .invalidOCIRefName ∧
    (parseOCIReference ParseReference ref).handedDown = [] := by
  have hm : MatchString ref = false := by
    rcases h with h | rfl | h | ⟨c, hc, h1, h2⟩ | ⟨u, r, v, rfl, hlen, hr⟩
    · exact h
    · exact MatchString_nil
    · exact MatchString_leading_slash ref h
    · exact MatchString_bad_char ref c hc h1 h2
    · exact MatchString_long_run u r v hlen hr
  simp [parseOCIReference, hm]

theorem parseOCIReference_rejects_witness :
    ("/app".toList.head? = some '/') ∧
    (parseOCIReference lowercaseOnlyParser "/app".toList).result = .error .invalidOCIRefName ∧
    (parseOCIReference lowercaseOnlyParser "/app".toList).handedDown = [] :=
  ⟨by decide,
    parseOCIReference_rejects lowercaseOnlyParser "/app".toList (Or.inr (Or.inr (Or.inl (by decide))))⟩

/-- C10: the grammar check accepts a string exactly when it is non-empty, its first and last
characters are ASCII alphanumerics, every character in between is an ASCII alphanumeric or one
of `-._:@+/`, and every maximal run of non-alphanumeric characters is a single one of
`-._:@+/` or exactly `--`. So `a--b` is accepted while `a..b`, `a__b`, `a//b`, `a-.b` and
`a---b` are rejected, and so is any string ending in a newline. -/
theorem MatchString_characterisation :
    (∀ s : List Char, MatchString s = true ↔
      (s ≠ [] ∧ headAlnum s = true ∧ lastAlnum s = true ∧
        (∀ c ∈ inner s, isAsciiAlnum c = true ∨ isSeparator c = true) ∧
        (∀ r, IsMaximalRun s r → (∃ c, r = [c] ∧ isSeparator c = true) ∨ r = ['-', '-']))) ∧
    MatchString "a--b".toList = true ∧
    MatchString "a..b".toList = false ∧
    MatchString "a__b".toList = false ∧
    MatchString "a//b".toList = false ∧
    MatchString "a-.b".toList = false ∧
    MatchString "a---b".toList = false ∧
    (∀ s : List Char, MatchString (s ++ ['\n']) = false) := by
  refine ⟨?_, by decide, by decide, by decide, by decide, by decide, by decide,
    MatchString_trailing_newline⟩
  intro s
  have hrun : ∀ r : List Char, allowedRun r = true ↔
      ((∃ c, r = [c] ∧ isSeparator c = true) ∨ r = ['-', '-']) := by
    intro r
    match r with
    | [] => simp [allowedRun]
    | [c] => simp [allowedRun]
    | [c, d] => simp [allowedRun]
    | _ :: _ :: _ :: _ => simp [allowedRun]
  rw [MatchString_eq_grammarSpec]
  simp only [grammarSpec, Bool.and_eq_true, Bool.not_eq_true', List.isEmpty_eq_false,
    List.all_eq_true, Bool.or_eq_true, hrun, and_assoc, mem_nonAlnumRuns_iff]

/-! ## Credential decoding -/

theorem awsMarker_eq : awsMarker = [65, 87, 83, 58] := by decide

theorem TrimPrefix_append (marker p : GoBytes) : TrimPrefix (marker ++ p) marker = p := by
  have h : marker.isPrefixOf (marker ++ p) = true := by
    rw [List.isPrefixOf_iff_prefix]
    exact List.prefix_append marker p
  simp [TrimPrefix, h]

/-! ### The reference codec round-trips -/

theorem sextetValue_sextetChar (n : Nat) (h : n < 64) : sextetValue (sextetChar n) = some n := by
  unfold sextetChar sextetValue
  split_ifs <;> first | omega | (simp; omega) | simp

theorem sextetChar_ne_pad (n : Nat) : sextetChar n ≠ 61 := by
  unfold sextetChar
  split_ifs <;> omega

theorem stdDecode_quad (w x y z : Nat) (rest : GoBytes) (hy : y ≠ 61) (hz : z ≠ 61) :
    stdDecode (w :: x :: y :: z :: rest) =
      (match sextetValue w, sextetValue x, sextetValue y, sextetValue z with
        | some p, some q, some r, some t =>
          match stdDecode rest with
          | .ok tail => .ok ((p * 4 + q / 16) :: (q % 16 * 16 + r / 4) :: (r % 4 * 64 + t) :: tail)
          | .error e => .error e
        | _, _, _, _ => .error (.external "illegal base64 data")) := by
  rw [stdDecode]
  · intro h _ _; exact hy h
  · intro h _; exact hz h

/-- The reference codec round-trips every byte string. -/
theorem stdDecode_stdEncode : ∀ (x : GoBytes), (∀ b ∈ x, b < 256) →
    stdDecode (stdEncode x) = .ok x
  | [], _ => rfl
  | [a], h => by
    have ha : a < 256 := h a (by simp)
    simp only [stdEncode, stdDecode]
    rw [sextetValue_sextetChar _ (by omega), sextetValue_sextetChar _ (by omega)]
    simp only [Except.ok.injEq, List.cons.injEq, and_true]
    omega
  | [a, b], h => by
    have ha : a < 256 := h a (by simp)
    have hb : b < 256 := h b (by simp)
    have hne := sextetChar_ne_pad (b % 16 * 4)
    simp only [stdEncode]
    rw [stdDecode]
    · rw [sextetValue_sextetChar _ (by omega), sextetValue_sextetChar _ (by omega),
        sextetValue_sextetChar _ (by omega)]
      simp only [Except.ok.injEq, List.cons.injEq, and_true]
      omega
    · exact hne
  | a :: b :: c :: rest, h => by
    have ha : a < 256 := h a (by simp)
    have hb : b < 256 := h b (by simp)
    have hc : c < 256 := h c (by simp)
    have ih := stdDecode_stdEncode rest (fun d hd => h d (by simp [hd]))
    simp only [stdEncode]
    rw [stdDecode_quad _ _ _ _ _ (sextetChar_ne_pad _) (sextetChar_ne_pad _),
      sextetValue_sextetChar _ (by omega), sextetValue_sextetChar _ (by omega),
      sextetValue_sextetChar _ (by omega), sextetValue_sextetChar _ (by omega), ih]
    simp only [Except.ok.injEq, List.cons.injEq, and_true]
    omega

theorem normalizeToken_of_decode (DecodeString : GoBytes → Except Err GoBytes)
    (token p : GoBytes) (h : DecodeString token = .ok (awsMarker ++ p)) :
    normalizeToken DecodeString token = (p, none) := by
  simp [normalizeToken, h, TrimPrefix_append]

/-- With the reference codec the password comes back for every byte string. -/
theorem normalizeToken_stdEncode (p : GoBytes) (hp : ∀ b ∈ p, b < 256) :
    normalizeToken stdDecode (stdEncode (awsMarker ++ p)) = (p, none) := by
  apply normalizeToken_of_decode
  apply stdDecode_stdEncode
  intro b hb
  rcases List.mem_append.mp hb with h | h
  · rw [awsMarker_eq] at h
    simp only [List.mem_cons, List.mem_singleton, List.not_mem_nil, or_false] at h
    omega
  · exact hp b h

/-- C3: for every password `p`, `normalizeToken` applied to a token that is the base64
encoding of `"AWS:"` followed by `p` (the decoder maps it back to those bytes) returns exactly
`p` and no error, and `retrieveCredential` pairs that password with the user name `AWS`. -/
theorem normalizeToken_strips_marker
    (DecodeString : GoBytes → Except Err GoBytes) (EncodeToString : GoBytes → GoBytes)
    (p : GoBytes)
    (hcodec : DecodeString (EncodeToString (awsMarker ++ p)) = .ok (awsMarker ++ p)) :
    normalizeToken DecodeString (EncodeToString (awsMarker ++ p)) = (p, none) ∧
    (∀ (κ : Type) (LoadDefaultConfig : Except Err κ)
        (GetAuthorizationToken : κ → Except Err GoBytes) (c : κ),
      LoadDefaultConfig = .ok c →
      GetAuthorizationToken c = .ok (EncodeToString (awsMarker ++ p)) →
      retrieveCredential LoadDefaultConfig GetAuthorizationToken DecodeString =
        ({ Username := asciiBytes "AWS", Password := p }, none)) := by
  have h1 : normalizeToken DecodeString (EncodeToString (awsMarker ++ p)) = (p, none) :=
    normalizeToken_of_decode DecodeString _ p hcodec
  refine ⟨h1, ?_⟩
  intro κ load get c hload hget
  simp [retrieveCredential, hload, hget, h1]

theorem normalizeToken_strips_marker_witness :
    stdEncode (awsMarker ++ asciiBytes "secretpass") = asciiBytes "QVdTOnNlY3JldHBhc3M=" ∧
    stdDecode (stdEncode (awsMarker ++ asciiBytes "secretpass")) =
      .ok (awsMarker ++ asciiBytes "secretpass") ∧
    (normalizeToken stdDecode (stdEncode (awsMarker ++ asciiBytes "secretpass")) =
        (asciiBytes "secretpass", none) ∧
      (∀ (κ : Type) (LoadDefaultConfig : Except Err κ)
          (GetAuthorizationToken : κ → Except Err GoBytes) (c : κ),
        LoadDefaultConfig = .ok c →
        GetAuthorizationToken c = .ok (stdEncode (awsMarker ++ asciiBytes "secretpass")) →
        retrieveCredential LoadDefaultConfig GetAuthorizationToken stdDecode =
          ({ Username := asciiBytes "AWS", Password := asciiBytes "secretpass" }, none))) :=
  ⟨by decide, by rfl,
    normalizeToken_strips_marker stdDecode stdEncode (asciiBytes "secretpass") (by rfl)⟩

/-! ### Valid padded base64 is what the reference decoder accepts -/

theorem sextetValue_isSome_iff (b : Nat) :
    (∃ n, sextetValue b = some n) ↔ isBase64Char b = true := by
  unfold sextetValue isBase64Char
  split_ifs <;> simp <;> omega

theorem isBase64Char_ne_pad (b : Nat) (h : isBase64Char b = true) : b ≠ 61 := by
  rintro rfl
  revert h
  decide

theorem stdDecode_short (s : GoBytes) (h : s.length % 4 ≠ 0) (hlt : s.length < 4) :
    ∀ out, stdDecode s ≠ .ok out := by
  intro out
  match s, h, hlt with
  | [a], _, _ => simp [stdDecode]
  | [a, b], _, _ => simp [stdDecode]
  | [a, b, c], _, _ => simp [stdDecode]


theorem sextetValue_of_char (b : Nat) (h : isBase64Char b = true) :
    ∃ n, sextetValue b = some n := (sextetValue_isSome_iff b).mpr h

theorem sextetValue_none (b : Nat) (h : isBase64Char b = false) : sextetValue b = none := by
  cases hv : sextetValue b with
  | none => rfl
  | some n =>
    have := (sextetValue_isSome_iff b).mp ⟨n, hv⟩
    rw [h] at this
    exact absurd this (by simp)

theorem stdDecode_pad2 (w x : Nat) :
    stdDecode [w, x, 61, 61] =
      (match sextetValue w, sextetValue x with
        | some p, some q => .ok [p * 4 + q / 16]
        | _, _ => .error (.external "illegal base64 data")) := by
  rw [stdDecode]

theorem stdDecode_pad1 (w x y : Nat) (hy : y ≠ 61) :
    stdDecode [w, x, y, 61] =
      (match sextetValue w, sextetValue x, sextetValue y with
        | some p, some q, some r => .ok [p * 4 + q / 16, q % 16 * 16 + r / 4]
        | _, _, _ => .error (.external "illegal base64 data")) := by
  rw [stdDecode]
  intro h
  exact hy h

theorem stdDecode_quad' (w x y z : Nat) (rest : GoBytes) (h : rest ≠ [] ∨ z ≠ 61) :
    stdDecode (w :: x :: y :: z :: rest) =
      (match sextetValue w, sextetValue x, sextetValue y, sextetValue z with
        | some p, some q, some r, some t =>
          match stdDecode rest with
          | .ok tail => .ok ((p * 4 + q / 16) :: (q % 16 * 16 + r / 4) :: (r % 4 * 64 + t) :: tail)
          | .error e => .error e
        | _, _, _, _ => .error (.external "illegal base64 data")) := by
  rw [stdDecode]
  · intro _ hz hr
    rcases h with h | h
    · exact h hr
    · exact h hz
  · intro hz hr
    rcases h with h | h
    · exact h hr
    · exact h hz

theorem quad_ok_iff (w x y z : Nat) (R : Except Err GoBytes) :
    (∃ out, ((match sextetValue w, sextetValue x, sextetValue y, sextetValue z with
        | some p, some q, some r, some t =>
          match R with
          | .ok tail => .ok ((p * 4 + q / 16) :: (q % 16 * 16 + r / 4) :: (r % 4 * 64 + t) :: tail)
          | .error e => .error e
        | _, _, _, _ => .error (.external "illegal base64 data")) : Except Err GoBytes) =
          .ok out) ↔
      (isBase64Char w = true ∧ isBase64Char x = true ∧ isBase64Char y = true ∧
        isBase64Char z = true ∧ ∃ tail, R = .ok tail) := by
  rw [← sextetValue_isSome_iff w, ← sextetValue_isSome_iff x, ← sextetValue_isSome_iff y,
    ← sextetValue_isSome_iff z]
  cases sextetValue w <;> cases sextetValue x <;> cases sextetValue y <;>
    cases sextetValue z <;> cases R <;> simp

theorem stdDecode_ok_iff_validQuads : ∀ s : GoBytes,
    (∃ out, stdDecode s = .ok out) ↔ validQuads s = true
  | [] => by simp [stdDecode, validQuads]
  | [a] => by simp [stdDecode, validQuads]
  | [a, b] => by simp [stdDecode, validQuads]
  | [a, b, c] => by simp [stdDecode, validQuads]
  | w :: x :: y :: z :: rest => by
    have ih := stdDecode_ok_iff_validQuads rest
    have h61 : sextetValue 61 = none := by decide
    have hb61 : isBase64Char 61 = false := by decide
    by_cases hrest : rest = []
    · subst hrest
      by_cases hz : z = 61
      · subst hz
        by_cases hy : y = 61
        · subst hy
          rw [stdDecode_pad2]
          cases hw : isBase64Char w <;> cases hx : isBase64Char x
          all_goals first
            | (rw [sextetValue_none w hw]; simp [validQuads, hw, hx, hb61])
            | (rw [sextetValue_none x hx]; simp [validQuads, hw, hx, hb61])
            | (obtain ⟨p, hp⟩ := sextetValue_of_char w hw
               obtain ⟨q, hq⟩ := sextetValue_of_char x hx
               rw [hp, hq]; simp [validQuads, hw, hx, hb61])
        · rw [stdDecode_pad1 w x y hy]
          cases hw : isBase64Char w <;> cases hx : isBase64Char x <;>
            cases hyy : isBase64Char y
          all_goals first
            | (rw [sextetValue_none w hw]; simp [validQuads, hw, hx, hyy, hb61, hy])
            | (rw [sextetValue_none x hx]; simp [validQuads, hw, hx, hyy, hb61, hy])
            | (rw [sextetValue_none y hyy]; simp [validQuads, hw, hx, hyy, hb61, hy])
            | (obtain ⟨p, hp⟩ := sextetValue_of_char w hw
               obtain ⟨q, hq⟩ := sextetValue_of_char x hx
               obtain ⟨r, hr⟩ := sextetValue_of_char y hyy
               rw [hp, hq, hr]; simp [validQuads, hw, hx, hyy, hb61, hy])
      · rw [stdDecode_quad' w x y z [] (Or.inr hz), quad_ok_iff]
        have hz2 : (z == 61) = false := by simpa using hz
        simp only [validQuads, List.isEmpty_nil, if_true, hz2, Bool.and_false, Bool.or_false,
          Bool.and_eq_true]
        constructor
        · rintro ⟨h1, h2, h3, h4, _⟩
          exact ⟨⟨h1, h2⟩, h3, h4⟩
        · rintro ⟨⟨h1, h2⟩, h3, h4⟩
          exact ⟨h1, h2, h3, h4, [], rfl⟩
    · rw [stdDecode_quad' w x y z rest (Or.inl hrest), quad_ok_iff, ih]
      have hne : rest.isEmpty = false := by
        cases rest with
        | nil => exact absurd rfl hrest
        | cons a t => rfl
      simp only [validQuads, hne, Bool.false_eq_true, if_false, Bool.and_eq_true, and_assoc]


theorem pad_length_le (pad : GoBytes) (h : pad = [] ∨ pad = [61] ∨ pad = [61, 61]) :
    pad.length ≤ 2 := by
  rcases h with rfl | rfl | rfl <;> simp

theorem validQuads_iff : ∀ s : GoBytes, validQuads s = true ↔ IsStdBase64 s
  | [] => by
    simp only [validQuads, true_iff]
    exact ⟨rfl, [], [], rfl, by simp, Or.inl rfl⟩
  | [a] => by
    simp only [validQuads, Bool.false_eq_true, false_iff]
    rintro ⟨h, _⟩
    simp at h
  | [a, b] => by
    simp only [validQuads, Bool.false_eq_true, false_iff]
    rintro ⟨h, _⟩
    simp at h
  | [a, b, c] => by
    simp only [validQuads, Bool.false_eq_true, false_iff]
    rintro ⟨h, _⟩
    simp at h
  | w :: x :: y :: z :: rest => by
    have ih := validQuads_iff rest
    by_cases hrest : rest = []
    · subst hrest
      simp only [validQuads, List.isEmpty_nil, if_true, Bool.and_eq_true, Bool.or_eq_true,
        beq_iff_eq]
      constructor
      · rintro ⟨⟨hw, hx⟩, (⟨hy, hz⟩ | ⟨hy, rfl⟩) | ⟨rfl, rfl⟩⟩
        · exact ⟨by simp, [w, x, y, z], [], rfl, by simp [hw, hx, hy, hz], Or.inl rfl⟩
        · exact ⟨by simp, [w, x, y], [61], rfl, by simp [hw, hx, hy], Or.inr (Or.inl rfl)⟩
        · exact ⟨by simp, [w, x], [61, 61], rfl, by simp [hw, hx], Or.inr (Or.inr rfl)⟩
      · rintro ⟨_, body, pad, heq, hbody, hpad⟩
        rcases hpad with rfl | rfl | rfl
        · rw [List.append_nil] at heq
          subst heq
          simp only [List.mem_cons, List.mem_singleton, List.not_mem_nil, or_false,
            forall_eq_or_imp, forall_eq] at hbody
          exact ⟨⟨hbody.1, hbody.2.1⟩, Or.inl (Or.inl ⟨hbody.2.2.1, hbody.2.2.2⟩)⟩
        · have hb : body = [w, x, y] ∧ z = 61 := by
            have h2 : [w, x, y, z] = [w, x, y] ++ [z] := rfl
            rw [h2] at heq
            have := List.append_inj' heq rfl
            exact ⟨this.1.symm, by simpa using this.2⟩
          obtain ⟨rfl, rfl⟩ := hb
          simp only [List.mem_cons, List.mem_singleton, List.not_mem_nil, or_false,
            forall_eq_or_imp, forall_eq] at hbody
          exact ⟨⟨hbody.1, hbody.2.1⟩, Or.inl (Or.inr ⟨hbody.2.2, rfl⟩)⟩
        · have hb : body = [w, x] ∧ y = 61 ∧ z = 61 := by
            have h2 : [w, x, y, z] = [w, x] ++ [y, z] := rfl
            rw [h2] at heq
            have := List.append_inj' heq rfl
            exact ⟨this.1.symm, by simpa using this.2⟩
          obtain ⟨rfl, rfl, rfl⟩ := hb
          simp only [List.mem_cons, List.mem_singleton, List.not_mem_nil, or_false,
            forall_eq_or_imp, forall_eq] at hbody
          exact ⟨⟨hbody.1, hbody.2⟩, Or.inr ⟨rfl, rfl⟩⟩
    · have hne : rest.isEmpty = false := by
        cases rest with
        | nil => exact absurd rfl hrest
        | cons a t => rfl
      simp only [validQuads, hne, Bool.false_eq_true, if_false, Bool.and_eq_true, ih]
      constructor
      · rintro ⟨⟨⟨⟨hw, hx⟩, hy⟩, hz⟩, hlen, body, pad, rfl, hbody, hpad⟩
        refine ⟨?_, w :: x :: y :: z :: body, pad, rfl, ?_, hpad⟩
        · simp only [List.length_cons]
          omega
        · intro b hb
          simp only [List.mem_cons] at hb
          rcases hb with rfl | rfl | rfl | rfl | hb
          · exact hw
          · exact hx
          · exact hy
          · exact hz
          · exact hbody b hb
      · rintro ⟨hlen, body, pad, heq, hbody, hpad⟩
        have hpl := pad_length_le pad hpad
        have hrl : 0 < rest.length := List.length_pos.mpr hrest
        simp only [List.length_cons] at hlen
        have htot := congrArg List.length heq
        simp only [List.length_cons, List.length_append] at htot
        match body, heq, hbody, htot with
        | b1 :: b2 :: b3 :: b4 :: body', heq, hbody, _ =>
          simp only [List.cons_append, List.cons.injEq] at heq
          obtain ⟨rfl, rfl, rfl, rfl, rfl⟩ := heq
          refine ⟨⟨⟨⟨hbody _ (by simp), hbody _ (by simp)⟩, hbody _ (by simp)⟩,
            hbody _ (by simp)⟩, ?_, body', pad, rfl, ?_, hpad⟩
          · omega
          · intro b hb
            exact hbody b (by simp [hb])
        | [], _, _, htot => simp at htot; omega
        | [_], _, _, htot => simp at htot; omega
        | [_, _], _, _, htot => simp at htot; omega
        | [_, _, _], _, _, htot => simp at htot; omega

/-- The reference decoder accepts exactly the valid padded base64 texts. -/
theorem stdDecode_ok_iff (s : GoBytes) : (∃ out, stdDecode s = .ok out) ↔ IsStdBase64 s := by
  rw [stdDecode_ok_iff_validQuads, validQuads_iff]


theorem stripNewlines_of_IsStdBase64 (s : GoBytes) (h : IsStdBase64 s) :
    stripNewlines s = s := by
  obtain ⟨_, body, pad, rfl, hbody, hpad⟩ := h
  unfold stripNewlines
  rw [List.filter_eq_self]
  intro b hb
  rcases List.mem_append.mp hb with hb | hb
  · have := hbody b hb
    have h10 : b ≠ 10 := by rintro rfl; revert this; decide
    have h13 : b ≠ 13 := by rintro rfl; revert this; decide
    simp [h10, h13]
  · rcases hpad with rfl | rfl | rfl
    · simp at hb
    · simp at hb; subst hb; decide
    · simp at hb; subst hb; decide

/-- C4 (as stated, refuted): the token `QVdTOnNlY3JldHBhc3M=` followed by a line feed is not
valid padded base64 (21 characters, one of them outside the alphabet), yet `normalizeToken`
returns the password `secretpass` and no error, because the decoder of the Go standard
library ignores new line characters. -/
theorem normalizeToken_accepts_newline_token :
    ¬ IsStdBase64 (asciiBytes "QVdTOnNlY3JldHBhc3M=\n") ∧
    normalizeToken goDecodeString (asciiBytes "QVdTOnNlY3JldHBhc3M=\n") =
      (asciiBytes "secretpass", none) := by
  constructor
  · rintro ⟨h, _⟩
    revert h
    decide
  · decide

/-- C4 (amended): `normalizeToken` returns an error exactly when its token, once carriage
returns and line feeds are dropped, is not valid standard padded base64, and the password it
returns with an error is empty; for every valid standard padded base64 token it returns no
error. Whatever the decoder, `normalizeToken` reports an error exactly when the decoder
does. -/
theorem normalizeToken_error_iff_invalid (token : GoBytes) :
    ((normalizeToken goDecodeString token).2 ≠ none ↔ ¬ IsStdBase64 (stripNewlines token)) ∧
    ((normalizeToken goDecodeString token).2 ≠ none →
      (normalizeToken goDecodeString token).1 = []) ∧
    (IsStdBase64 token → (normalizeToken goDecodeString token).2 = none) ∧
    (∀ DecodeString : GoBytes → Except Err GoBytes,
      ((normalizeToken DecodeString token).2 ≠ none ↔
        ∀ decoded, DecodeString token ≠ .ok decoded) ∧
      (∀ err, DecodeString token = .error err →
        normalizeToken DecodeString token = ([], some err))) := by
  have hgen : ∀ DecodeString : GoBytes → Except Err GoBytes,
      ((normalizeToken DecodeString token).2 ≠ none ↔
        ∀ decoded, DecodeString token ≠ .ok decoded) ∧
      (∀ err, DecodeString token = .error err →
        normalizeToken DecodeString token = ([], some err)) := by
    intro DecodeString
    cases h : DecodeString token with
    | error e => simp [normalizeToken, h]
    | ok d => simp [normalizeToken, h]
  have hiff : (normalizeToken goDecodeString token).2 ≠ none ↔
      ¬ IsStdBase64 (stripNewlines token) := by
    rw [(hgen goDecodeString).1, ← stdDecode_ok_iff]
    simp [goDecodeString]
  refine ⟨hiff, ?_, ?_, hgen⟩
  · intro herr
    cases h : goDecodeString token with
    | error e => simp [normalizeToken, h]
    | ok d => simp [normalizeToken, h] at herr
  · intro hvalid
    by_contra hne
    have := hiff.mp hne
    rw [stripNewlines_of_IsStdBase64 token hvalid] at this
    exact this hvalid

/-! ## The label merge -/

theorem foldl_set_of_not_mem (annotations : List (String × String)) (m : GoMap) (k : String)
    (hk : k ∉ annotations.map Prod.fst) :
    annotations.foldl (fun m kv => m.set kv.1 kv.2) m k = m k := by
  induction annotations generalizing m with
  | nil => rfl
  | cons kv rest ih =>
    simp only [List.map_cons, List.mem_cons, not_or] at hk
    rw [List.foldl_cons, ih _ hk.2]
    simp [GoMap.set, hk.1]

theorem foldl_set_of_mem (annotations : List (String × String)) (m : GoMap) (k v : String)
    (hnodup : (annotations.map Prod.fst).Nodup) (hkv : (k, v) ∈ annotations) :
    annotations.foldl (fun m kv => m.set kv.1 kv.2) m k = some v := by
  induction annotations generalizing m with
  | nil => simp at hkv
  | cons kv rest ih =>
    rw [List.map_cons, List.nodup_cons] at hnodup
    rw [List.foldl_cons]
    rcases List.mem_cons.mp hkv with h | h
    · subst h
      rw [foldl_set_of_not_mem rest _ k hnodup.1]
      simp [GoMap.set]
    · exact ih _ hnodup.2 h

/-- C5: the label merge of `Sign.Run` overwrites on conflict and preserves otherwise. For
every existing label map (nil included) and every annotation map (its entries taken in any
iteration order, keys distinct): each annotation key maps to the annotation value afterwards,
every other key keeps what the existing labels held, no key outside the two maps appears,
merging the empty map changes nothing, and `{a:1}` followed by `{a:2,b:3}` gives
`{a:2,b:3}`. -/
theorem mergeLabels_overwrite_preserve (labels : Option GoMap)
    (annotations : List (String × String))
    (hkeys : (annotations.map Prod.fst).Nodup) :
    (∀ k v, (k, v) ∈ annotations → mergeLabels labels annotations k = some v) ∧
    (∀ k, k ∉ annotations.map Prod.fst →
      mergeLabels labels annotations k = lookupLabel labels k) ∧
    (∀ k, mergeLabels labels annotations k ≠ none →
      lookupLabel labels k ≠ none ∨ k ∈ annotations.map Prod.fst) ∧
    (∀ k, mergeLabels labels [] k = lookupLabel labels k) ∧
    (∀ m : GoMap, mergeLabels (some m) [] = m) ∧
    (∀ second, (second = [("a", "2"), ("b", "3")] ∨ second = [("b", "3"), ("a", "2")]) →
      ∀ k, mergeLabels (some (mergeLabels none [("a", "1")])) second k =
        (if k = "a" then some "2" else if k = "b" then some "3" else none)) := by
  have hstart : ∀ k, (match labels with
      | none => GoMap.empty
      | some m => m) k = lookupLabel labels k := by
    intro k; cases labels <;> rfl
  have hpres : ∀ k, k ∉ annotations.map Prod.fst →
      mergeLabels labels annotations k = lookupLabel labels k := by
    intro k hk
    unfold mergeLabels
    rw [foldl_set_of_not_mem annotations _ k hk, hstart]
  refine ⟨?_, hpres, ?_, ?_, ?_, ?_⟩
  · intro k v hkv
    exact foldl_set_of_mem annotations _ k v hkeys hkv
  · intro k hk
    by_cases hmem : k ∈ annotations.map Prod.fst
    · exact Or.inr hmem
    · left; rw [← hpres k hmem]; exact hk
  · intro k
    cases labels <;> rfl
  · intro m; rfl
  · rintro second (rfl | rfl) k
    · simp only [mergeLabels, List.foldl_cons, List.foldl_nil, GoMap.set, GoMap.empty]
      by_cases ha : k = "a"
      · subst ha; simp
      · by_cases hb : k = "b"
        · subst hb; simp
        · simp [ha, hb]
    · simp only [mergeLabels, List.foldl_cons, List.foldl_nil, GoMap.set, GoMap.empty]
      by_cases ha : k = "a"
      · subst ha; simp
      · by_cases hb : k = "b"
        · subst hb; simp
        · simp [ha, hb]

theorem mergeLabels_overwrite_preserve_witness :
    (["test"].Nodup) ∧
    (mergeLabels (some (GoMap.empty.set "test" "old")) [("test", "me")] "test" = some "me") ∧
    (mergeLabels (some (GoMap.empty.set "maintainer" "x")) [("test", "me")] "maintainer" =
      some "x") ∧
    (mergeLabels none [("test", "me")] "other" = none) :=
  ⟨by decide,
    (mergeLabels_overwrite_preserve (some (GoMap.empty.set "test" "old")) [("test", "me")]
      (by decide)).1 "test" "me" (by simp),
    by decide, by decide⟩

/-! ## The signing workflow -/

theorem handler_referenceModel (marshal : Cosign → GoBytes) (signer : GoBytes → GoBytes)
    (dstRef : Reference) (dd : Option (SigEntry → SigEntry → Bool)) (d : Hash)
    (w : Digest → List SigEntry) :
    (handler (referenceModel marshal) signer dstRef dd { digest := d, pending := none } w).world =
      Function.update w (dstRef.Context.Digest d.String)
        (dedupeAndReplace dd (modelSig marshal signer dstRef d)
          (w (dstRef.Context.Digest d.String))) ∧
    (handler (referenceModel marshal) signer dstRef dd { digest := d, pending := none } w).err =
      none := by
  constructor <;> rfl

theorem dedupeAndReplace_idem (same : SigEntry → SigEntry → Bool) (sig : SigEntry)
    (base : List SigEntry) (hsame : same sig sig = true) :
    dedupeAndReplace (some same) sig (dedupeAndReplace (some same) sig base) =
      dedupeAndReplace (some same) sig base := by
  by_cases h : base.any (fun e => same e sig) = true
  · simp [dedupeAndReplace, h]
  · have h2 : (base ++ [sig]).any (fun e => same e sig) = true := by
      simp [List.any_append, hsame]
    simp only [dedupeAndReplace, h, Bool.false_eq_true, if_false, h2, if_true]

/-- C6 (as stated, refuted): through the handler of `Sign.Run`, which passes no dupe detector,
publishing for the same entity twice leaves two signature entries, not one; the second
publication is appended, not skipped. -/
theorem handler_republish_two_entries :
    ((handler (referenceModel sampleMarshal) id sampleDst none sampleEntity
        (handler (referenceModel sampleMarshal) id sampleDst none sampleEntity
          (fun _ => [])).world).world
      (sampleDst.Context.Digest sampleEntity.digest.String)).length = 2 ∧
    (handler (referenceModel sampleMarshal) id sampleDst none sampleEntity
        (handler (referenceModel sampleMarshal) id sampleDst none sampleEntity
          (fun _ => [])).world).world
      (sampleDst.Context.Digest sampleEntity.digest.String) ≠
    (handler (referenceModel sampleMarshal) id sampleDst none sampleEntity
          (fun _ => [])).world
      (sampleDst.Context.Digest sampleEntity.digest.String) := by
  have h1 := (handler_referenceModel sampleMarshal id sampleDst none sampleEntity.digest
    (fun _ => [])).1
  have h2 := (handler_referenceModel sampleMarshal id sampleDst none sampleEntity.digest
    (handler (referenceModel sampleMarshal) id sampleDst none sampleEntity (fun _ => [])).world).1
  have he : sampleEntity = { digest := sampleEntity.digest, pending := none } := rfl
  rw [← he] at h1 h2
  rw [h2, h1]
  simp [dedupeAndReplace]

/-- C6 (amended): `Sign.Run` runs the handler without a dupe detector, and without one
publishing for the same entity twice appends the same signature twice. With a dupe detector
passed to the attach step (as the handler of `TestSign` does) whose equivalence holds between
a signature and itself, the second publication is skipped: the store is left as the first
publication left it, with exactly one entry when none was published before. -/
theorem handler_dupe_detection (marshal : Cosign → GoBytes) (signer : GoBytes → GoBytes)
    (dstRef : Reference) (d : Hash) (w : Digest → List SigEntry)
    (same : SigEntry → SigEntry → Bool)
    (hsame : same (modelSig marshal signer dstRef d) (modelSig marshal signer dstRef d) = true) :
    (∀ (deps : Collaborators) (s : Sign) (w0 : deps.World) (p : Prepared deps),
      prepare deps s w0 = .ok p →
      Sign.Run deps s w0 =
        walkSignedEntity deps (handler deps p.verifier p.dstRef none) (deps.Entities p.se)
          p.world) ∧
    ((handler (referenceModel marshal) signer dstRef none { digest := d, pending := none }
        (handler (referenceModel marshal) signer dstRef none { digest := d, pending := none }
          w).world).world (dstRef.Context.Digest d.String) =
      w (dstRef.Context.Digest d.String) ++
        [modelSig marshal signer dstRef d, modelSig marshal signer dstRef d]) ∧
    ((handler (referenceModel marshal) signer dstRef (some same) { digest := d, pending := none }
        (handler (referenceModel marshal) signer dstRef (some same)
          { digest := d, pending := none } w).world).world =
      (handler (referenceModel marshal) signer dstRef (some same)
          { digest := d, pending := none } w).world) ∧
    (w (dstRef.Context.Digest d.String) = [] →
      (handler (referenceModel marshal) signer dstRef (some same) { digest := d, pending := none }
        (handler (referenceModel marshal) signer dstRef (some same)
          { digest := d, pending := none } w).world).world (dstRef.Context.Digest d.String) =
        [modelSig marshal signer dstRef d]) := by
  have hdd : ∀ dd w1, (handler (referenceModel marshal) signer dstRef dd
      { digest := d, pending := none } w1).world =
      Function.update w1 (dstRef.Context.Digest d.String)
        (dedupeAndReplace dd (modelSig marshal signer dstRef d)
          (w1 (dstRef.Context.Digest d.String))) :=
    fun dd w1 => (handler_referenceModel marshal signer dstRef dd d w1).1
  have hskip : (handler (referenceModel marshal) signer dstRef (some same)
        { digest := d, pending := none }
        (handler (referenceModel marshal) signer dstRef (some same)
          { digest := d, pending := none } w).world).world =
      (handler (referenceModel marshal) signer dstRef (some same)
          { digest := d, pending := none } w).world := by
    rw [hdd (some same) (handler (referenceModel marshal) signer dstRef (some same)
          { digest := d, pending := none } w).world, hdd (some same) w]
    simp only [Function.update_same, Function.update_idem]
    rw [dedupeAndReplace_idem same _ _ hsame]
  refine ⟨?_, ?_, hskip, ?_⟩
  · intro deps s w0 p hp
    simp [Sign.Run, hp]
  · rw [hdd none (handler (referenceModel marshal) signer dstRef none
          { digest := d, pending := none } w).world, hdd none w]
    simp [dedupeAndReplace]
  · intro hempty
    rw [hskip, hdd (some same) w]
    simp [dedupeAndReplace, hempty]

theorem handler_dupe_detection_witness :
    samePayload (modelSig sampleMarshal id sampleDst sampleEntity.digest)
      (modelSig sampleMarshal id sampleDst sampleEntity.digest) = true ∧
    (handler (referenceModel sampleMarshal) id sampleDst (some samePayload) sampleEntity
        (handler (referenceModel sampleMarshal) id sampleDst (some samePayload)
          sampleEntity (fun _ => [])).world).world =
      (handler (referenceModel sampleMarshal) id sampleDst (some samePayload)
          sampleEntity (fun _ => [])).world :=
  ⟨by simp [samePayload],
    (handler_dupe_detection sampleMarshal id sampleDst sampleEntity.digest (fun _ => [])
      samePayload (by simp [samePayload])).2.2.1⟩

/-! ### What the handler signs and writes -/

theorem mapLiteral_test (k : String) :
    mapLiteral testAnnotations k = if k = "test" then some "me" else none := by
  simp [mapLiteral, testAnnotations, GoMap.set, GoMap.empty]

/-- What the log of one handler call can hold: a signing request for the payload built from
the destination repository and the entity digest, and a write request that all earlier steps
led to. -/
theorem handler_log (deps : Collaborators) (verifier : deps.Signer) (dstRef : Reference)
    (dd : Option deps.DupeDetector) (se : deps.Entity) (w : deps.World) :
    (∀ payload data, Event.signing payload data ∈ (handler deps verifier dstRef dd se w).log →
      ∃ d, deps.EntityDigest se = .ok d ∧
        payload = cosignPayload dstRef.Context d (mapLiteral testAnnotations) ∧
        deps.MarshalJSON payload = .ok data) ∧
    (∀ repo newSE, Event.writing repo newSE ∈ (handler deps verifier dstRef dd se w).log →
      repo = dstRef.Context ∧
      ∃ d data signed sig, deps.EntityDigest se = .ok d ∧
        deps.MarshalJSON (cosignPayload dstRef.Context d (mapLiteral testAnnotations)) =
          .ok data ∧
        deps.SignMessage verifier data = .ok signed ∧
        deps.NewSignature data (deps.EncodeToString signed) = .ok sig ∧
        deps.AttachSignatureToEntity se sig dd = .ok newSE ∧
        (handler deps verifier dstRef dd se w).world = (deps.WriteSignatures repo newSE w).1 ∧
        (handler deps verifier dstRef dd se w).err = (deps.WriteSignatures repo newSE w).2) ∧
    ((∀ repo newSE, Event.writing repo newSE ∉ (handler deps verifier dstRef dd se w).log) →
      (handler deps verifier dstRef dd se w).world = w ∧
      (handler deps verifier dstRef dd se w).err ≠ none) := by
  cases h1 : deps.EntityDigest se with
  | error e => simp [handler, h1]
  | ok d =>
    cases h2 : deps.MarshalJSON
        { Image := dstRef.Context.Digest d.String, Annotations := mapLiteral testAnnotations } with
    | error e => simp [handler, h1, h2]
    | ok data =>
      cases h3 : deps.SignMessage verifier data with
      | error e => simp [handler, h1, h2, h3, cosignPayload]
      | ok signed =>
        cases h4 : deps.NewSignature data (deps.EncodeToString signed) with
        | error e => simp [handler, h1, h2, h3, h4, cosignPayload]
        | ok sig =>
          cases h5 : deps.AttachSignatureToEntity se sig dd with
          | error e => simp [handler, h1, h2, h3, h4, h5, cosignPayload]
          | ok newSE =>
            have hrepo : (dstRef.Context.Digest d.String).Repository = dstRef.Context := rfl
            simp [handler, h1, h2, h3, h4, h5, cosignPayload, hrepo]

theorem handler_success (deps : Collaborators) (verifier : deps.Signer) (dstRef : Reference)
    (dd : Option deps.DupeDetector) (se : deps.Entity) (w : deps.World) (d : Hash)
    (data signed : GoBytes) (sig : deps.Signature) (newSE : deps.Entity)
    (hd : deps.EntityDigest se = .ok d)
    (hm : deps.MarshalJSON (cosignPayload dstRef.Context d (mapLiteral testAnnotations)) =
      .ok data)
    (hs : deps.SignMessage verifier data = .ok signed)
    (hn : deps.NewSignature data (deps.EncodeToString signed) = .ok sig)
    (ha : deps.AttachSignatureToEntity se sig dd = .ok newSE) :
    handler deps verifier dstRef dd se w =
      { world := (deps.WriteSignatures dstRef.Context newSE w).1,
        err := (deps.WriteSignatures dstRef.Context newSE w).2,
        log := [.signing (cosignPayload dstRef.Context d (mapLiteral testAnnotations)) data,
          .writing dstRef.Context newSE] } := by
  have hm2 : deps.MarshalJSON
      { Image := dstRef.Context.Digest d.String,
        Annotations := mapLiteral testAnnotations } = .ok data := hm
  have hrepo : (dstRef.Context.Digest d.String).Repository = dstRef.Context := rfl
  simp [handler, hd, hm2, hs, hn, ha, cosignPayload, hrepo]

theorem prepare_ok (deps : Collaborators) (s : Sign) (w0 : deps.World) (p : Prepared deps)
    (h : prepare deps s w0 = .ok p) :
    (parseOCIReference deps.ParseReference s.DestImage).result = .ok p.dstRef ∧
    deps.LoadSignerVerifier = .ok p.verifier ∧
    deps.SignedEntity p.dstRef p.world = .ok p.se := by
  unfold prepare at h
  split at h
  · cases h
  · rename_i verifier hv
    split at h
    · cases h
    · split at h
      · cases h
      · rename_i dstRef hdst
        split at h
        · cases h
        · split at h
          · cases h
          · split at h
            · cases h
            · dsimp only at h
              split at h
              · cases h
              · try dsimp only at h
                split at h
                · cases h
                · rename_i w1 hw
                  split at h
                  · cases h
                  · rename_i se hse
                    cases h
                    exact ⟨hdst, hv, hse⟩

theorem mem_walkSignedEntity_log (deps : Collaborators)
    (fn : deps.Entity → deps.World → Outcome deps) (es : List deps.Entity) (w : deps.World)
    (ev : Event deps) (h : ev ∈ (walkSignedEntity deps fn es w).log) :
    ∃ se ∈ es, ev = .visit se ∨ ∃ v, ev ∈ (fn se v).log := by
  induction es generalizing w with
  | nil => simp [walkSignedEntity] at h
  | cons x rest ih =>
    cases hx : (fn x w).err with
    | some e =>
      simp only [walkSignedEntity, hx, List.mem_cons] at h
      rcases h with h | h
      · exact ⟨x, List.mem_cons_self _ _, Or.inl h⟩
      · exact ⟨x, List.mem_cons_self _ _, Or.inr ⟨w, h⟩⟩
    | none =>
      have hlog : (walkSignedEntity deps fn (x :: rest) w).log =
          .visit x :: (fn x w).log ++ (walkSignedEntity deps fn rest (fn x w).world).log := by
        simp [walkSignedEntity, hx]
      rw [hlog] at h
      rcases List.mem_append.mp h with h | h
      · rcases List.mem_cons.mp h with h | h
        · exact ⟨x, List.mem_cons_self _ _, Or.inl h⟩
        · exact ⟨x, List.mem_cons_self _ _, Or.inr ⟨w, h⟩⟩
      · obtain ⟨se, hse, hev⟩ := ih (fn x w).world h
        exact ⟨se, List.mem_cons_of_mem _ hse, hev⟩

/-- C7: in a run of `Sign.Run` the destination reference is the parsed `DestImage` argument,
never the source, and the walked entity is discovered from it. For a visited entity with
digest `d` whose steps succeed, the handler asks the signer to sign the serialization of the
payload naming the destination repository qualified by `d` (`repository@digest`, whatever
the destination tag) with exactly the annotations `{"test": "me"}`, then builds the signature
from those bytes and the base64 text of the signer's output, attaches it and writes it to
the destination repository; the world it leaves is the one the write returns. Every signing
and writing request of the run has this form. -/
theorem Run_signs_destination_digest (deps : Collaborators) (s : Sign) (w0 : deps.World)
    (p : Prepared deps) (se : deps.Entity) (d : Hash) (data signed : GoBytes)
    (sig : deps.Signature) (newSE : deps.Entity)
    (hprep : prepare deps s w0 = .ok p)
    (hd : deps.EntityDigest se = .ok d)
    (hm : deps.MarshalJSON (cosignPayload p.dstRef.Context d (mapLiteral testAnnotations)) =
      .ok data)
    (hs : deps.SignMessage p.verifier data = .ok signed)
    (hn : deps.NewSignature data (deps.EncodeToString signed) = .ok sig)
    (ha : deps.AttachSignatureToEntity se sig none = .ok newSE) :
    ((parseOCIReference deps.ParseReference s.DestImage).result = .ok p.dstRef ∧
      deps.LoadSignerVerifier = .ok p.verifier ∧
      deps.SignedEntity p.dstRef p.world = .ok p.se) ∧
    (∀ w, handler deps p.verifier p.dstRef none se w =
      { world := (deps.WriteSignatures p.dstRef.Context newSE w).1,
        err := (deps.WriteSignatures p.dstRef.Context newSE w).2,
        log := [.signing (cosignPayload p.dstRef.Context d (mapLiteral testAnnotations)) data,
          .writing p.dstRef.Context newSE] }) ∧
    ((cosignPayload p.dstRef.Context d (mapLiteral testAnnotations)).Image =
        p.dstRef.Context.Digest d.String ∧
      (cosignPayload p.dstRef.Context d (mapLiteral testAnnotations)).Image.Name =
        p.dstRef.Context.Name ++ "@" ++ d.String ∧
      (∀ k, (cosignPayload p.dstRef.Context d (mapLiteral testAnnotations)).Annotations k =
        if k = "test" then some "me" else none)) ∧
    (deps.Entities p.se = [se] →
      Sign.Run deps s w0 =
        { world := (deps.WriteSignatures p.dstRef.Context newSE p.world).1,
          err := (deps.WriteSignatures p.dstRef.Context newSE p.world).2,
          log := [.visit se,
            .signing (cosignPayload p.dstRef.Context d (mapLiteral testAnnotations)) data,
            .writing p.dstRef.Context newSE] }) ∧
    (∀ payload bytes, Event.signing payload bytes ∈ (Sign.Run deps s w0).log →
      ∃ x e, x ∈ deps.Entities p.se ∧ deps.EntityDigest x = .ok e ∧
        payload = cosignPayload p.dstRef.Context e (mapLiteral testAnnotations) ∧
        deps.MarshalJSON payload = .ok bytes) ∧
    (∀ repo y, Event.writing repo y ∈ (Sign.Run deps s w0).log →
      repo = p.dstRef.Context ∧
      ∃ x e bytes raw sg, x ∈ deps.Entities p.se ∧ deps.EntityDigest x = .ok e ∧
        deps.MarshalJSON (cosignPayload p.dstRef.Context e (mapLiteral testAnnotations)) =
          .ok bytes ∧
        deps.SignMessage p.verifier bytes = .ok raw ∧
        deps.NewSignature bytes (deps.EncodeToString raw) = .ok sg ∧
        deps.AttachSignatureToEntity x sg none = .ok y) := by
  have hrun : Sign.Run deps s w0 =
      walkSignedEntity deps (handler deps p.verifier p.dstRef none) (deps.Entities p.se)
        p.world := by
    simp [Sign.Run, hprep]
  have hh := fun w => handler_success deps p.verifier p.dstRef none se w d data signed sig
    newSE hd hm hs hn ha
  refine ⟨prepare_ok deps s w0 p hprep, hh, ⟨rfl, rfl, mapLiteral_test⟩, ?_, ?_, ?_⟩
  · intro hent
    rw [hrun, hent]
    cases hw : (deps.WriteSignatures p.dstRef.Context newSE p.world).2 with
    | none => simp [walkSignedEntity, hh, hw]
    | some e => simp [walkSignedEntity, hh, hw]
  · intro payload bytes hmem
    rw [hrun] at hmem
    obtain ⟨x, hx, hev⟩ := mem_walkSignedEntity_log deps _ _ _ _ hmem
    rcases hev with hev | ⟨v, hev⟩
    · cases hev
    · obtain ⟨e, he, hp, hj⟩ := (handler_log deps p.verifier p.dstRef none x v).1 _ _ hev
      exact ⟨x, e, hx, he, hp, hj⟩
  · intro repo y hmem
    rw [hrun] at hmem
    obtain ⟨x, hx, hev⟩ := mem_walkSignedEntity_log deps _ _ _ _ hmem
    rcases hev with hev | ⟨v, hev⟩
    · cases hev
    · obtain ⟨hrepo, e, bytes, raw, sg, h1, h2, h3, h4, h5, _, _⟩ :=
        (handler_log deps p.verifier p.dstRef none x v).2.1 _ _ hev
      exact ⟨hrepo, x, e, bytes, raw, sg, hx, h1, h2, h3, h4, h5⟩

theorem Run_signs_destination_digest_witness :
    prepare endToEndModel sampleSign (fun _ => []) =
      .ok { verifier := id, dstRef := sampleDst, se := sampleEntity, world := fun _ => [] } ∧
    (cosignPayload sampleDst.Context sampleEntity.digest (mapLiteral testAnnotations)).Image.Name =
      "registry.example/app@sha256:abc" ∧
    (Sign.Run endToEndModel sampleSign (fun _ => [])).log =
      [.visit sampleEntity,
        .signing (cosignPayload sampleDst.Context sampleEntity.digest
            (mapLiteral testAnnotations))
          (asciiBytes
            "\x7b\"image\":\"registry.example/app@sha256:abc\",\"annotations\":\x7b\"test\":\"me\"\x7d\x7d"),
        .writing sampleDst.Context
          { sampleEntity with
            pending := some (modelSig
              (fun payload => asciiBytes (marshalCosign payload ["test"])) id sampleDst
              sampleEntity.digest, none) }] :=
  ⟨rfl, by decide,
    congrArg Outcome.log
      ((Run_signs_destination_digest endToEndModel sampleSign (fun _ => [])
        { verifier := id, dstRef := sampleDst, se := sampleEntity, world := fun _ => [] }
        sampleEntity sampleEntity.digest
        (asciiBytes
          "\x7b\"image\":\"registry.example/app@sha256:abc\",\"annotations\":\x7b\"test\":\"me\"\x7d\x7d")
        _ _ _ rfl rfl rfl rfl rfl rfl).2.2.2.1 rfl)⟩

/-! ### Determinism of the payload -/

theorem mapLiteral_eq_of_perm (entries₁ entries₂ : List (String × String))
    (hnodup : (entries₁.map Prod.fst).Nodup) (hperm : entries₁.Perm entries₂) :
    mapLiteral entries₁ = mapLiteral entries₂ := by
  have hnodup2 : (entries₂.map Prod.fst).Nodup := (hperm.map Prod.fst).nodup_iff.mp hnodup
  funext k
  unfold mapLiteral
  by_cases hk : k ∈ entries₁.map Prod.fst
  · obtain ⟨kv, hkv, rfl⟩ := List.mem_map.mp hk
    rw [foldl_set_of_mem entries₁ _ kv.1 kv.2 hnodup hkv,
      foldl_set_of_mem entries₂ _ kv.1 kv.2 hnodup2 (hperm.mem_iff.mp hkv)]
  · have hk2 : k ∉ entries₂.map Prod.fst := fun h => hk ((hperm.map Prod.fst).mem_iff.mpr h)
    rw [foldl_set_of_not_mem entries₁ _ k hk, foldl_set_of_not_mem entries₂ _ k hk2]

theorem lexLE_total : ∀ a b : List Char, lexLE a b = true ∨ lexLE b a = true
  | [], _ => Or.inl rfl
  | _ :: _, [] => Or.inr rfl
  | a :: as, b :: bs => by
    simp only [lexLE, Bool.or_eq_true, Bool.and_eq_true, decide_eq_true_eq]
    rcases lexLE_total as bs with h | h
    · rcases Nat.lt_trichotomy a.toNat b.toNat with h1 | h1 | h1
      · exact Or.inl (Or.inl h1)
      · exact Or.inl (Or.inr ⟨h1, h⟩)
      · exact Or.inr (Or.inl h1)
    · rcases Nat.lt_trichotomy a.toNat b.toNat with h1 | h1 | h1
      · exact Or.inl (Or.inl h1)
      · exact Or.inr (Or.inr ⟨h1.symm, h⟩)
      · exact Or.inr (Or.inl h1)

theorem lexLE_trans : ∀ a b c : List Char, lexLE a b = true → lexLE b c = true →
    lexLE a c = true
  | [], _, _, _, _ => rfl
  | _ :: _, [], _, h, _ => by simp [lexLE] at h
  | _ :: _, _ :: _, [], _, h => by simp [lexLE] at h
  | a :: as, b :: bs, c :: cs, h1, h2 => by
    simp only [lexLE, Bool.or_eq_true, Bool.and_eq_true, decide_eq_true_eq] at h1 h2 ⊢
    rcases h1 with h1 | ⟨h1, h1'⟩ <;> rcases h2 with h2 | ⟨h2, h2'⟩
    · exact Or.inl (by omega)
    · exact Or.inl (by omega)
    · exact Or.inl (by omega)
    · exact Or.inr ⟨by omega, lexLE_trans as bs cs h1' h2'⟩

theorem toNat_injective (a b : Char) (h : a.toNat = b.toNat) : a = b := by
  have ha : a = Char.ofNat a.toNat := by simp
  have hb : b = Char.ofNat b.toNat := by simp
  rw [ha, hb, h]

theorem lexLE_antisymm : ∀ a b : List Char, lexLE a b = true → lexLE b a = true → a = b
  | [], [], _, _ => rfl
  | [], _ :: _, _, h => by simp [lexLE] at h
  | _ :: _, [], h, _ => by simp [lexLE] at h
  | a :: as, b :: bs, h1, h2 => by
    simp only [lexLE, Bool.or_eq_true, Bool.and_eq_true, decide_eq_true_eq] at h1 h2
    rcases h1 with h1 | ⟨h1, h1'⟩ <;> rcases h2 with h2 | ⟨h2, h2'⟩
    · omega
    · omega
    · omega
    · rw [toNat_injective a b h1, lexLE_antisymm as bs h1' h2']

theorem sortedKeys_eq_of_perm (k₁ k₂ : List String) (h : k₁.Perm k₂) :
    sortedKeys k₁ = sortedKeys k₂ := by
  haveI : IsTotal String (fun a b => lexLE a.toList b.toList = true) :=
    ⟨fun a b => lexLE_total a.toList b.toList⟩
  haveI : IsTrans String (fun a b => lexLE a.toList b.toList = true) :=
    ⟨fun a b c => lexLE_trans a.toList b.toList c.toList⟩
  haveI : IsAntisymm String (fun a b => lexLE a.toList b.toList = true) :=
    ⟨fun a b h1 h2 => String.ext (lexLE_antisymm a.toList b.toList h1 h2)⟩
  unfold sortedKeys
  apply List.eq_of_perm_of_sorted (r := fun a b : String => lexLE a.toList b.toList = true)
  · exact (List.perm_insertionSort _ k₁).trans (h.trans (List.perm_insertionSort _ k₂).symm)
  · exact List.sorted_insertionSort _ k₁
  · exact List.sorted_insertionSort _ k₂


/-- C8: the serialized payload is deterministic. For every repository, digest and annotation
map, two constructions that insert the same entries (distinct keys) in different orders, and
whose keys the runtime enumerates in different orders, serialize to the same text; every
payload the handler signs for a digest is that one payload value; and the payload of the
sample destination serializes to the document with `image` and `annotations`. -/
theorem payload_serialization_deterministic (repo : Repository) (d : Hash)
    (entries₁ entries₂ : List (String × String)) (keys₁ keys₂ : List String)
    (hnodup : (entries₁.map Prod.fst).Nodup) (hperm : entries₁.Perm entries₂)
    (hk₁ : keys₁.Perm (entries₁.map Prod.fst)) (hk₂ : keys₂.Perm (entries₂.map Prod.fst)) :
    marshalCosign (cosignPayload repo d (mapLiteral entries₁)) keys₁ =
      marshalCosign (cosignPayload repo d (mapLiteral entries₂)) keys₂ ∧
    (∀ (deps : Collaborators) (verifier : deps.Signer) (dstRef : Reference)
        (dd : Option deps.DupeDetector) (se : deps.Entity) (w : deps.World)
        (payload : Cosign) (data : GoBytes),
      dstRef.Context = repo → deps.EntityDigest se = .ok d →
      Event.signing payload data ∈ (handler deps verifier dstRef dd se w).log →
      payload = cosignPayload repo d (mapLiteral testAnnotations)) ∧
    marshalCosign (cosignPayload sampleDst.Context sampleEntity.digest
        (mapLiteral testAnnotations)) ["test"] =
      "\x7b\"image\":\"registry.example/app@sha256:abc\",\"annotations\":\x7b\"test\":\"me\"\x7d\x7d" := by
  refine ⟨?_, ?_, by decide⟩
  · have hkeys : keys₁.Perm keys₂ :=
      hk₁.trans ((hperm.map Prod.fst).trans hk₂.symm)
    unfold marshalCosign
    rw [mapLiteral_eq_of_perm entries₁ entries₂ hnodup hperm, sortedKeys_eq_of_perm _ _ hkeys]
  · intro deps verifier dstRef dd se w payload data hctx hd hmem
    obtain ⟨e, he, hp, _⟩ := (handler_log deps verifier dstRef dd se w).1 payload data hmem
    rw [hd] at he
    cases he
    rw [hp, hctx]

theorem payload_serialization_deterministic_witness :
    ((([("test", "me"), ("source", "ci")] : List (String × String)).map Prod.fst).Nodup) ∧
    marshalCosign (cosignPayload sampleDst.Context sampleEntity.digest
        (mapLiteral [("test", "me"), ("source", "ci")])) ["test", "source"] =
      marshalCosign (cosignPayload sampleDst.Context sampleEntity.digest
        (mapLiteral [("source", "ci"), ("test", "me")])) ["source", "test"] ∧
    marshalCosign (cosignPayload sampleDst.Context sampleEntity.digest
        (mapLiteral [("test", "me"), ("source", "ci")])) ["test", "source"] =
      "\x7b\"image\":\"registry.example/app@sha256:abc\",\"annotations\":\x7b\"source\":\"ci\",\"test\":\"me\"\x7d\x7d" :=
  ⟨by decide,
    (payload_serialization_deterministic sampleDst.Context sampleEntity.digest
      [("test", "me"), ("source", "ci")] [("source", "ci"), ("test", "me")]
      ["test", "source"] ["source", "test"] (by decide) (List.Perm.swap _ _ _)
      (List.Perm.refl _) (List.Perm.refl _)).1,
    by decide⟩

/-! ### The walk is fail-fast -/

theorem walkSignedEntity_append (deps : Collaborators)
    (fn : deps.Entity → deps.World → Outcome deps) (pre rest : List deps.Entity)
    (w : deps.World) (hpre : (walkSignedEntity deps fn pre w).err = none) :
    walkSignedEntity deps fn (pre ++ rest) w =
      { world := (walkSignedEntity deps fn rest (walkSignedEntity deps fn pre w).world).world,
        err := (walkSignedEntity deps fn rest (walkSignedEntity deps fn pre w).world).err,
        log := (walkSignedEntity deps fn pre w).log ++
          (walkSignedEntity deps fn rest (walkSignedEntity deps fn pre w).world).log } := by
  induction pre generalizing w with
  | nil => simp [walkSignedEntity]
  | cons x pre ih =>
    cases hx : (fn x w).err with
    | some e => simp [walkSignedEntity, hx] at hpre
    | none =>
      have hpre2 : (walkSignedEntity deps fn pre (fn x w).world).err = none := by
        simpa [walkSignedEntity, hx] using hpre
      simp [walkSignedEntity, hx, ih (fn x w).world hpre2]

theorem walkSignedEntity_fail (deps : Collaborators)
    (fn : deps.Entity → deps.World → Outcome deps) (se : deps.Entity)
    (post : List deps.Entity) (w : deps.World) (err : Err) (hfail : (fn se w).err = some err) :
    walkSignedEntity deps fn (se :: post) w =
      { world := (fn se w).world, err := some err, log := .visit se :: (fn se w).log } := by
  simp [walkSignedEntity, hfail]

/-- C9: the signing walk is fail-fast. If the handler fails on an entity of the visited
sequence, the walk stops there: its result is the one of the sequence cut after that entity
(no later entity is visited), the error is the handler's, and `Sign.Run` returns it. Within a
handler call a write is requested only after digest lookup, serialization, signing, signature
construction and attachment all succeeded, and a call that requests no write leaves the world
as it was. -/
theorem walk_fail_fast (deps : Collaborators) (verifier : deps.Signer) (dstRef : Reference)
    (dd : Option deps.DupeDetector) (pre post : List deps.Entity) (se : deps.Entity)
    (w : deps.World) (err : Err)
    (hpre : (walkSignedEntity deps (handler deps verifier dstRef dd) pre w).err = none)
    (hfail : (handler deps verifier dstRef dd se
      (walkSignedEntity deps (handler deps verifier dstRef dd) pre w).world).err = some err) :
    walkSignedEntity deps (handler deps verifier dstRef dd) (pre ++ se :: post) w =
      { world := (handler deps verifier dstRef dd se
          (walkSignedEntity deps (handler deps verifier dstRef dd) pre w).world).world,
        err := some err,
        log := (walkSignedEntity deps (handler deps verifier dstRef dd) pre w).log ++
          .visit se :: (handler deps verifier dstRef dd se
            (walkSignedEntity deps (handler deps verifier dstRef dd) pre w).world).log } ∧
    walkSignedEntity deps (handler deps verifier dstRef dd) (pre ++ se :: post) w =
      walkSignedEntity deps (handler deps verifier dstRef dd) (pre ++ [se]) w ∧
    (∀ (x : deps.Entity) (v : deps.World) repo newSE,
      Event.writing repo newSE ∈ (handler deps verifier dstRef dd x v).log →
      ∃ d data signed sig, deps.EntityDigest x = .ok d ∧
        deps.MarshalJSON (cosignPayload dstRef.Context d (mapLiteral testAnnotations)) =
          .ok data ∧
        deps.SignMessage verifier data = .ok signed ∧
        deps.NewSignature data (deps.EncodeToString signed) = .ok sig ∧
        deps.AttachSignatureToEntity x sig dd = .ok newSE ∧
        (handler deps verifier dstRef dd x v).err = (deps.WriteSignatures repo newSE v).2) ∧
    ((∀ repo newSE, Event.writing repo newSE ∉ (handler deps verifier dstRef dd se
        (walkSignedEntity deps (handler deps verifier dstRef dd) pre w).world).log) →
      (handler deps verifier dstRef dd se
        (walkSignedEntity deps (handler deps verifier dstRef dd) pre w).world).world =
        (walkSignedEntity deps (handler deps verifier dstRef dd) pre w).world) ∧
    (∀ (s : Sign) (w0 : deps.World) (p : Prepared deps),
      prepare deps s w0 = .ok p → p.verifier = verifier → p.dstRef = dstRef →
      p.world = w → deps.Entities p.se = pre ++ se :: post → dd = none →
      (Sign.Run deps s w0).err = some err) := by
  have hcut : ∀ rest, walkSignedEntity deps (handler deps verifier dstRef dd)
      (pre ++ se :: rest) w =
      { world := (handler deps verifier dstRef dd se
          (walkSignedEntity deps (handler deps verifier dstRef dd) pre w).world).world,
        err := some err,
        log := (walkSignedEntity deps (handler deps verifier dstRef dd) pre w).log ++
          .visit se :: (handler deps verifier dstRef dd se
            (walkSignedEntity deps (handler deps verifier dstRef dd) pre w).world).log } := by
    intro rest
    rw [walkSignedEntity_append deps _ pre (se :: rest) w hpre,
      walkSignedEntity_fail deps _ se rest _ err hfail]
  refine ⟨hcut post, by rw [hcut post, hcut []], ?_, ?_, ?_⟩
  · intro x v repo newSE hmem
    obtain ⟨_, d, data, signed, sig, h1, h2, h3, h4, h5, _, h7⟩ :=
      (handler_log deps verifier dstRef dd x v).2.1 repo newSE hmem
    exact ⟨d, data, signed, sig, h1, h2, h3, h4, h5, h7⟩
  · intro hno
    exact ((handler_log deps verifier dstRef dd se _).2.2 hno).1
  · intro s w0 p hp hv hr hw he hdd
    subst hv hr hw hdd
    simp only [Sign.Run, hp, he]
    rw [hcut post]

theorem walk_fail_fast_witness :
    (walkSignedEntity (failingModel sampleMarshal)
        (handler (failingModel sampleMarshal) id sampleDst none) [sampleEntity]
        (fun _ => [])).err = none ∧
    (handler (failingModel sampleMarshal) id sampleDst none badEntity
        (walkSignedEntity (failingModel sampleMarshal)
          (handler (failingModel sampleMarshal) id sampleDst none) [sampleEntity]
          (fun _ => [])).world).err = some (.external "digest unavailable") ∧
    walkSignedEntity (failingModel sampleMarshal)
        (handler (failingModel sampleMarshal) id sampleDst none)
        ([sampleEntity] ++ badEntity :: [sampleEntity, sampleEntity]) (fun _ => []) =
      walkSignedEntity (failingModel sampleMarshal)
        (handler (failingModel sampleMarshal) id sampleDst none)
        ([sampleEntity] ++ [badEntity]) (fun _ => []) :=
  ⟨rfl, rfl,
    (walk_fail_fast (failingModel sampleMarshal) id sampleDst none [sampleEntity]
      [sampleEntity, sampleEntity] badEntity (fun _ => []) (.external "digest unavailable")
      rfl rfl).2.1⟩

end OCI
